import Mathlib

/-!
# Verification of the crt kernel (jzrake/crt-kernel)

Shallow embedding of the C++ sources `crt-expr.hpp`, `crt-context.hpp`,
`crt-algorithm.hpp` and `crt-workers.hpp`, together with proofs settling the
claims about them.

Modelling conventions:
* `immer::map<std::string, T>` and `std::unordered_map` are modelled as
  association lists (`List (String × T)`); the C++ iteration order is
  implementation-defined and is modelled as the list order.
* `immer::set<std::string>` / `std::unordered_set<std::string>` are modelled
  as `List String` used up to membership; `insertS` deduplicates like the
  C++ set insert does.
* C++ `double` is modelled as `Rat`; `std::to_string(double)` (printf `"%f"`,
  six fractional digits) is modelled exactly on rationals whose denominator
  divides 10^6, which is the only case the theorems rely on.
* `crt::func_t` closures are modelled by an opaque identifier (`Nat`)
  interpreted through an ambient interpretation `Interp`; C++ function
  values are opaque and never compared.
* `crt::user_data` handles (`std::shared_ptr`) are modelled as
  `Option (Nat × String × Expr)`: `none` is the null pointer, and a non-null
  handle carries an identity, its `type_name()` and its `to_table()`.
* Exceptions are modelled with `Except`/`Option` return types.
-/

namespace Crt

/-! ## Association-list maps (model of `immer::map` / `std::unordered_map`) -/

/-- Lookup in an association list (model of `map::count` + `map::at`). -/
def afind? {α : Type} (m : List (String × α)) (k : String) : Option α :=
  (m.find? (fun kv => kv.1 == k)).map (·.2)

/-- Key membership (model of `map::count`). -/
def amem {α : Type} (m : List (String × α)) (k : String) : Bool :=
  m.any (fun kv => kv.1 == k)

/-- `map::set`: replace the binding if the key is present, else add it. -/
def aset {α : Type} (m : List (String × α)) (k : String) (v : α) :
    List (String × α) :=
  if amem m k then m.map (fun kv => if kv.1 == k then (k, v) else kv)
  else m ++ [(k, v)]

/-- `map::erase`. -/
def aerase {α : Type} (m : List (String × α)) (k : String) :
    List (String × α) :=
  m.filter (fun kv => !(kv.1 == k))

/-- Set-like insert on a string list (model of `set::insert`). -/
def insertS (l : List String) (s : String) : List String :=
  if l.contains s then l else l ++ [s]

/-- `set::erase`. -/
def eraseS (l : List String) (s : String) : List String :=
  l.filter (fun x => !(x == s))

/-! ## The expression data model (`crt::expression`) -/

/-- `crt::expression`: a tagged variant; every variant carries the `keyword`
field.  `f64` uses `Rat` for `double`, `func` an opaque id for `func_t`,
`data` an optional handle `(identity, type_name(), to_table())` for
`shared_ptr<user_data>` (with `none` the null pointer). -/
inductive Expr : Type where
  | none  (key : String)
  | i32   (v : Int) (key : String)
  | f64   (v : Rat) (key : String)
  | str   (v : String) (key : String)
  | sym   (v : String) (key : String)
  | table (parts : List Expr) (key : String)
  | func  (fid : Nat) (key : String)
  | data  (h : Option (Nat × String × Expr)) (key : String)
deriving Repr

namespace Expr

mutual
/-- Structural equality test (decidability helper for the nested type). -/
def ebeq : Expr → Expr → Bool
  | .none k, .none k' => k == k'
  | .i32 v k, .i32 v' k' => v == v' && k == k'
  | .f64 v k, .f64 v' k' => v == v' && k == k'
  | .str v k, .str v' k' => v == v' && k == k'
  | .sym v k, .sym v' k' => v == v' && k == k'
  | .table ps k, .table ps' k' => ebeqList ps ps' && k == k'
  | .func f k, .func f' k' => f == f' && k == k'
  | .data Option.none k, .data Option.none k' => k == k'
  | .data (some (i, n, t)) k, .data (some (i', n', t')) k' =>
    i == i' && n == n' && ebeq t t' && k == k'
  | _, _ => false

def ebeqList : List Expr → List Expr → Bool
  | [], [] => true
  | e :: es, e' :: es' => ebeq e e' && ebeqList es es'
  | _, _ => false
end

mutual
theorem ebeq_refl : (a : Expr) → ebeq a a = true
  | .none _ => by simp [ebeq]
  | .i32 _ _ => by simp [ebeq]
  | .f64 _ _ => by simp [ebeq]
  | .str _ _ => by simp [ebeq]
  | .sym _ _ => by simp [ebeq]
  | .table ps _ => by simp [ebeq, ebeqList_refl ps]
  | .func _ _ => by simp [ebeq]
  | .data Option.none _ => by simp [ebeq]
  | .data (some (_, _, t)) _ => by simp [ebeq, ebeq_refl t]

theorem ebeqList_refl : (l : List Expr) → ebeqList l l = true
  | [] => by simp [ebeqList]
  | e :: es => by simp [ebeqList, ebeq_refl e, ebeqList_refl es]
end

mutual
theorem eq_of_ebeq : (a b : Expr) → ebeq a b = true → a = b
  | .none _, .none _, h => by simp [ebeq] at h; simp [h]
  | .i32 _ _, .i32 _ _, h => by simp [ebeq] at h; simp [h.1, h.2]
  | .f64 _ _, .f64 _ _, h => by simp [ebeq] at h; simp [h.1, h.2]
  | .str _ _, .str _ _, h => by simp [ebeq] at h; simp [h.1, h.2]
  | .sym _ _, .sym _ _, h => by simp [ebeq] at h; simp [h.1, h.2]
  | .table ps k, .table ps' k', h => by
    simp only [ebeq, Bool.and_eq_true, beq_iff_eq] at h
    have := eqList_of_ebeqList ps ps' h.1
    simp [this, h.2]
  | .func _ _, .func _ _, h => by simp [ebeq] at h; simp [h.1, h.2]
  | .data Option.none _, .data Option.none _, h => by simp [ebeq] at h; simp [h]
  | .data (some (i, n, t)) k, .data (some (i', n', t')) k', h => by
    simp only [ebeq, Bool.and_eq_true, beq_iff_eq] at h
    have := eq_of_ebeq t t' h.1.2
    simp [h.1.1.1, h.1.1.2, h.2, this]
  | .none _, .i32 _ _, h => by simp [ebeq] at h
  | .none _, .f64 _ _, h => by simp [ebeq] at h
  | .none _, .str _ _, h => by simp [ebeq] at h
  | .none _, .sym _ _, h => by simp [ebeq] at h
  | .none _, .table _ _, h => by simp [ebeq] at h
  | .none _, .func _ _, h => by simp [ebeq] at h
  | .none _, .data _ _, h => by simp [ebeq] at h
  | .i32 _ _, .none _, h => by simp [ebeq] at h
  | .i32 _ _, .f64 _ _, h => by simp [ebeq] at h
  | .i32 _ _, .str _ _, h => by simp [ebeq] at h
  | .i32 _ _, .sym _ _, h => by simp [ebeq] at h
  | .i32 _ _, .table _ _, h => by simp [ebeq] at h
  | .i32 _ _, .func _ _, h => by simp [ebeq] at h
  | .i32 _ _, .data _ _, h => by simp [ebeq] at h
  | .f64 _ _, .none _, h => by simp [ebeq] at h
  | .f64 _ _, .i32 _ _, h => by simp [ebeq] at h
  | .f64 _ _, .str _ _, h => by simp [ebeq] at h
  | .f64 _ _, .sym _ _, h => by simp [ebeq] at h
  | .f64 _ _, .table _ _, h => by simp [ebeq] at h
  | .f64 _ _, .func _ _, h => by simp [ebeq] at h
  | .f64 _ _, .data _ _, h => by simp [ebeq] at h
  | .str _ _, .none _, h => by simp [ebeq] at h
  | .str _ _, .i32 _ _, h => by simp [ebeq] at h
  | .str _ _, .f64 _ _, h => by simp [ebeq] at h
  | .str _ _, .sym _ _, h => by simp [ebeq] at h
  | .str _ _, .table _ _, h => by simp [ebeq] at h
  | .str _ _, .func _ _, h => by simp [ebeq] at h
  | .str _ _, .data _ _, h => by simp [ebeq] at h
  | .sym _ _, .none _, h => by simp [ebeq] at h
  | .sym _ _, .i32 _ _, h => by simp [ebeq] at h
  | .sym _ _, .f64 _ _, h => by simp [ebeq] at h
  | .sym _ _, .str _ _, h => by simp [ebeq] at h
  | .sym _ _, .table _ _, h => by simp [ebeq] at h
  | .sym _ _, .func _ _, h => by simp [ebeq] at h
  | .sym _ _, .data _ _, h => by simp [ebeq] at h
  | .table _ _, .none _, h => by simp [ebeq] at h
  | .table _ _, .i32 _ _, h => by simp [ebeq] at h
  | .table _ _, .f64 _ _, h => by simp [ebeq] at h
  | .table _ _, .str _ _, h => by simp [ebeq] at h
  | .table _ _, .sym _ _, h => by simp [ebeq] at h
  | .table _ _, .func _ _, h => by simp [ebeq] at h
  | .table _ _, .data _ _, h => by simp [ebeq] at h
  | .func _ _, .none _, h => by simp [ebeq] at h
  | .func _ _, .i32 _ _, h => by simp [ebeq] at h
  | .func _ _, .f64 _ _, h => by simp [ebeq] at h
  | .func _ _, .str _ _, h => by simp [ebeq] at h
  | .func _ _, .sym _ _, h => by simp [ebeq] at h
  | .func _ _, .table _ _, h => by simp [ebeq] at h
  | .func _ _, .data _ _, h => by simp [ebeq] at h
  | .data _ _, .none _, h => by simp [ebeq] at h
  | .data _ _, .i32 _ _, h => by simp [ebeq] at h
  | .data _ _, .f64 _ _, h => by simp [ebeq] at h
  | .data _ _, .str _ _, h => by simp [ebeq] at h
  | .data _ _, .sym _ _, h => by simp [ebeq] at h
  | .data _ _, .table _ _, h => by simp [ebeq] at h
  | .data _ _, .func _ _, h => by simp [ebeq] at h
  | .data Option.none _, .data (some _) _, h => by simp [ebeq] at h
  | .data (some (_, _, _)) _, .data Option.none _, h => by simp [ebeq] at h

theorem eqList_of_ebeqList : (l l' : List Expr) → ebeqList l l' = true → l = l'
  | [], [], _ => rfl
  | e :: es, e' :: es', h => by
    simp only [ebeqList, Bool.and_eq_true] at h
    rw [eq_of_ebeq e e' h.1, eqList_of_ebeqList es es' h.2]
  | [], _ :: _, h => by simp [ebeqList] at h
  | _ :: _, [], h => by simp [ebeqList] at h
end

instance : DecidableEq Expr := fun a b =>
  decidable_of_iff (ebeq a b = true)
    ⟨eq_of_ebeq a b, fun h => h ▸ ebeq_refl a⟩

/-- `expression::key()`. -/
def key : Expr → String
  | .none k => k
  | .i32 _ k => k
  | .f64 _ k => k
  | .str _ k => k
  | .sym _ k => k
  | .table _ k => k
  | .func _ k => k
  | .data _ k => k

/-- `expression::keyed(kw)`: same value, different key. -/
def keyed : Expr → String → Expr
  | .none _, kw => .none kw
  | .i32 v _, kw => .i32 v kw
  | .f64 v _, kw => .f64 v kw
  | .str v _, kw => .str v kw
  | .sym v _, kw => .sym v kw
  | .table ps _, kw => .table ps kw
  | .func f _, kw => .func f kw
  | .data h _, kw => .data h kw

/-- The table constructor `expression(std::vector<expression>)`: an empty
part list collapses to `none` (with empty key, as in C++). -/
def mkTable (ps : List Expr) : Expr :=
  if ps.isEmpty then .none "" else .table ps ""

mutual
/-- `expression::symbols()`: all symbols at any depth.  The C++ function
returns an `unordered_set`; the model returns a list used up to
membership. -/
def symbols : Expr → List String
  | .sym v _ => [v]
  | .table ps _ => symbolsList ps
  | _ => []

def symbolsList : List Expr → List String
  | [] => []
  | e :: es => symbols e ++ symbolsList es
end

@[simp] theorem key_keyed (e : Expr) (kw : String) : (e.keyed kw).key = kw := by
  cases e <;> rfl

@[simp] theorem symbols_keyed (e : Expr) (kw : String) :
    symbols (e.keyed kw) = symbols e := by
  cases e <;> rfl

end Expr

/-! ## The context (`crt::context`) -/

/-- `crt::context`: items plus the maintained incoming/outgoing edge
indexes. -/
structure Ctx where
  items : List (String × Expr)
  incoming : List (String × List String)
  outgoing : List (String × List String)
deriving Repr, DecidableEq

namespace Ctx

/-- The default-constructed context. -/
def empty : Ctx := ⟨[], [], []⟩

/-- `context::contains(key)`. -/
def contains (c : Ctx) (k : String) : Bool := amem c.items k

/-- `context::get(k)`: the stored expression, or an empty one keyed `k`. -/
def get (c : Ctx) (k : String) : Expr :=
  match afind? c.items k with
  | some e => e
  | Option.none => Expr.none k

/-- `context::size()`. -/
def size (c : Ctx) : Nat := c.items.length

/-- `context::get_incoming(key)`. -/
def get_incoming (c : Ctx) (k : String) : List String :=
  if c.contains k then (afind? c.incoming k).getD [] else []

/-- `context::get_outgoing(key)`: the cached set for a present key, else an
O(N) scan of the items for rules whose incoming set names `k`. -/
def get_outgoing (c : Ctx) (k : String) : List String :=
  if c.contains k then (afind? c.outgoing k).getD []
  else
    c.items.foldl
      (fun out kv => if (c.get_incoming kv.1).contains k then insertS out kv.1 else out)
      []

/-- `context::remove_through`: `out[s] -= e.key for s in e.symbols`. -/
def removeThrough (o : List (String × List String)) (e : Expr) :
    List (String × List String) :=
  (Expr.symbols e).foldl
    (fun o s => if amem o s then aset o s (eraseS ((afind? o s).getD []) e.key) else o)
    o

/-- `context::add_through`: `out[s] += e.key for s in e.symbols`. -/
def addThrough (o : List (String × List String)) (e : Expr) :
    List (String × List String) :=
  (Expr.symbols e).foldl
    (fun o s => if amem o s then aset o s (insertS ((afind? o s).getD []) e.key) else o)
    o

/-- `context::insert(e)`.  Note the C++ `context::insert` performs no cycle
check and cannot fail. -/
def insert (c : Ctx) (e : Expr) : Ctx :=
  let k := e.key
  { items := aset c.items k e
    incoming := aset c.incoming k (Expr.symbols e)
    outgoing := aset (addThrough (removeThrough c.outgoing (c.get k)) e) k
      (c.get_outgoing k) }

/-- `context::erase(key)`. -/
def erase (c : Ctx) (k : String) : Ctx :=
  { items := aerase c.items k
    incoming := aerase c.incoming k
    outgoing := aerase (removeThrough c.outgoing (c.get k)) k }

/-- `context::erase(set)`: sequential single-key erases. -/
def eraseSet (c : Ctx) (ks : List String) : Ctx := ks.foldl Ctx.erase c

/-- `context::referencing(key)`, with explicit recursion fuel.  The C++
function recurses along outgoing edges and terminates exactly on graphs
without reverse-dependency cycles; fuel `size + 1` bounds that recursion
depth, so `referencingF (size+1)` agrees with the source wherever the
source terminates. -/
def referencingF : Nat → Ctx → String → List String
  | 0, c, k => insertS (c.get_outgoing k) k
  | n + 1, c, k =>
    let out := c.get_outgoing k
    let res := out.foldl (fun res j => (referencingF n c j).foldl insertS res) out
    insertS res k

/-- `context::referencing(key)` at the canonical fuel. -/
def referencing (c : Ctx) (k : String) : List String :=
  referencingF (c.size + 1) c k

end Ctx

/-! ## The evaluator (`expression::resolve` and `crt::call_adapter`) -/

/-- Interpretation of the opaque `func_t` closures: what `valfunc(args)`
returns for the function with a given id. -/
def Interp : Type := Nat → Expr → Expr

/-- `expression::first()`: `parts[0]` or `none`. -/
def Expr.firstE : Expr → Expr
  | .table ps _ => ps.headD (.none "")
  | _ => .none ""

/-- The parts iterated by `for (part : expr.rest())`: for a table these are
`parts[1:]` (via `rest()`), empty otherwise. -/
def Expr.restParts : Expr → List Expr
  | .table ps _ => ps.tail
  | _ => []

mutual
/-- Size measure used for termination of the evaluator (keys ignored). -/
def esz : Expr → Nat
  | .table ps _ => 1 + lsz ps
  | _ => 1

def lsz : List Expr → Nat
  | [] => 0
  | e :: es => esz e + lsz es + 1
end

mutual
/-- `expression::resolve(scope, adapter)` with the default `call_adapter`
and a products context as scope (`context::at` throws `out_of_range` on a
missing key, which the symbol case catches, returning the symbol
unchanged).  The empty-table case (unreachable: the C++ table constructor
collapses an empty part list to `none`) is written with the adapter body
already unfolded on `first() = none`, `rest() = none`. -/
def Expr.resolve (F : Interp) (scope : Ctx) : Expr → Expr
  | .table [] k => (Expr.table [.none ""] "").keyed k
  | .table (p :: ps) k => (adapterCall F scope p ps).keyed k
  | .sym s k =>
    match afind? scope.items s with
    | some v => v.keyed k
    | Option.none => .sym s k
  | e => e
termination_by e => esz e
decreasing_by all_goals simp [esz, lsz] <;> omega

/-- `call_adapter::call(scope, expr)`, given `expr`'s first part and
remaining parts: resolve the head; if it is a function, call it on the
resolved arguments packed into a table (`head.call(args)` keys the result
with the head's key); otherwise build `head.nest().concat(args)`. -/
def adapterCall (F : Interp) (scope : Ctx) (hd : Expr) (rest : List Expr) : Expr :=
  let head := hd.resolve F scope
  let args := resolveList F scope rest
  match head with
  | .func fid hk => (F fid (Expr.mkTable args)).keyed hk
  | _ => .table (head :: args) ""
termination_by 1 + esz hd + lsz rest
decreasing_by all_goals simp [esz, lsz] <;> omega

def resolveList (F : Interp) (scope : Ctx) : List Expr → List Expr
  | [] => []
  | e :: es => e.resolve F scope :: resolveList F scope es
termination_by l => lsz l
decreasing_by all_goals simp [esz, lsz] <;> omega
end

@[simp] theorem key_resolve (F : Interp) (scope : Ctx) (e : Expr) :
    (e.resolve F scope).key = e.key := by
  cases e with
  | table ps k =>
    cases ps with
    | nil => rw [Expr.resolve, Expr.key_keyed]; rfl
    | cons p ps => rw [Expr.resolve, Expr.key_keyed]; rfl
  | sym s k =>
    rw [Expr.resolve]
    cases afind? scope.items s with
    | none => rfl
    | some v => rw [Expr.key_keyed]; rfl
  | _ => simp [Expr.resolve]

/-! ## Rendering (`std::to_string`, `expression::unparse`, `expression::as_str`) -/

/-- The character of a decimal digit (`0 ≤ n ≤ 9`). -/
def digitChar (n : Nat) : Char :=
  if n = 0 then '0' else if n = 1 then '1' else if n = 2 then '2'
  else if n = 3 then '3' else if n = 4 then '4' else if n = 5 then '5'
  else if n = 6 then '6' else if n = 7 then '7' else if n = 8 then '8'
  else '9'

/-- The decimal digits of a natural number, most significant first
(the digit string `std::to_string` produces). -/
def natDigits (n : Nat) : List Char :=
  if n < 10 then [digitChar n]
  else natDigits (n / 10) ++ [digitChar (n % 10)]
decreasing_by exact Nat.div_lt_self (by omega) (by omega)

/-- `std::to_string(int)`. -/
def i32ToString (v : Int) : String :=
  (if v < 0 then "-" else "") ++ String.mk (natDigits v.natAbs)

/-- Zero-pad a digit list on the left to six places (the fractional part of
printf `"%f"`). -/
def pad6 (l : List Char) : List Char :=
  List.replicate (6 - l.length) '0' ++ l

/-- `std::to_string(double)`: printf `"%f"`, six fractional digits.  Exact
for rationals with denominator dividing `10^6` — the only case any theorem
relies on; for other values the model rounds with `round` where the C
library rounds in the current floating-point mode. -/
def f64ToString (q : Rat) : String :=
  let m : Nat := (round (|q| * 1000000) : Int).toNat
  (if q < 0 then "-" else "") ++
    String.mk (natDigits (m / 1000000)) ++ "." ++ String.mk (pad6 (natDigits (m % 1000000)))

/-- The key prefix `k=` (empty when the key is empty). -/
def Expr.pre (k : String) : String := if k.isEmpty then "" else k ++ "="

mutual
/-- `expression::unparse()`.  The `data` case renders
`valdata->to_table().unparse()`; on a null handle the C++ dereferences a
null pointer (undefined behaviour), modelled as the empty rendering and
relied on by no theorem. -/
def Expr.unparse : Expr → String
  | .none k => Expr.pre k ++ "()"
  | .i32 v k => Expr.pre k ++ i32ToString v
  | .f64 v k => Expr.pre k ++ f64ToString v
  | .str v k => Expr.pre k ++ "'" ++ v ++ "'"
  | .sym v k => Expr.pre k ++ v
  | .table ps k => Expr.pre k ++ "(" ++ Expr.unparseParts ps ++ ")"
  | .func _ k => Expr.pre k ++ "<func>"
  | .data Option.none k => Expr.pre k
  | .data (some (_, _, t)) k => Expr.pre k ++ Expr.unparse t

/-- The parts joined by single spaces (the C++ accumulates `" " + unparse`
and drops the leading character). -/
def Expr.unparseParts : List Expr → String
  | [] => ""
  | [e] => Expr.unparse e
  | e :: es => Expr.unparse e ++ " " ++ Expr.unparseParts es
end

/-- `expression::as_str()`, transcribed literally from the source: the
`data` arm is `valdata ? "()" : valdata->type_name()`, so a non-null
handle yields `"()"` and the null branch dereferences the null handle
(modelled as `Option.none`). -/
def Expr.as_str : Expr → Option String
  | .none _ => some "()"
  | .i32 v _ => some (i32ToString v)
  | .f64 v _ => some (f64ToString v)
  | .str v _ => some v
  | .sym v _ => some v
  | .data h _ => if h.isSome then some "()" else Option.none
  | .func _ _ => some "<func>"
  | .table ps k => some (Expr.unparse (.table ps k))

/-! ## The parser (`crt::parser`) -/

/-- The NUL character: `*c` when the C string is exhausted. -/
def nulC : Char := Char.ofNat 0

/-- `*c` on a possibly exhausted remainder. -/
def peek : List Char → Char
  | [] => nulC
  | c :: _ => c

/-- C `isspace` (ASCII). -/
def isSpaceC (c : Char) : Bool :=
  c == ' ' || c == '\t' || c == '\n' || c == '\x0b' || c == '\x0c' || c == '\r'

/-- `parser::is_symbol_character`: alphanumerics and `_ - : @`
(note: no `'+'`). -/
def is_symbol_character (c : Char) : Bool :=
  c.isAlpha || c.isDigit || c == '_' || c == '-' || c == ':' || c == '@'

/-- `parser::is_leading_symbol_character`: letters and `_ - : @`
(note: no `'+'`). -/
def is_leading_symbol_character (c : Char) : Bool :=
  c.isAlpha || c == '_' || c == '-' || c == ':' || c == '@'

/-- `parser::is_number(d)`: looks at the first three characters. -/
def is_number (c0 c1 c2 : Char) : Bool :=
  if c0.isDigit then true
  else if c0 == '.' then c1.isDigit
  else if c0 == '+' || c0 == '-' then c1.isDigit || (c1 == '.' && c2.isDigit)
  else false

/-- The scan of `parser::get_named_part`: walk symbol characters looking
for one followed by `'='`; `acc` holds the reversed keyword so far. -/
def gnpAux : List Char → List Char → Option (String × List Char)
  | c :: rest, acc =>
    if is_symbol_character c then
      if peek rest == '=' then some (String.mk (acc.reverse ++ [c]), rest.tail)
      else gnpAux rest (c :: acc)
    else Option.none
  | [], _ => Option.none

/-- `parser::get_named_part`: the keyword before an `'='`, if the scan
finds one, with the remainder after the `'='`. -/
def get_named_part (s : List Char) : Option (String × List Char) :=
  gnpAux s []

/-- The digit-list value (the arithmetic core of `atoi`/`atof`). -/
def natOfDigits (l : List Char) : Nat :=
  l.foldl (fun a c => a * 10 + (c.toNat - 48)) 0

/-- C `atoi` on the scanned token `[+-]?digits` (the token shapes
`parse_number` feeds it; 32-bit overflow is outside the model). -/
def atoi (l : List Char) : Int :=
  match l with
  | [] => 0
  | c :: rest =>
    if c == '-' then -(natOfDigits rest : Int)
    else if c == '+' then (natOfDigits rest : Int)
    else (natOfDigits (c :: rest) : Int)

/-- The leading digit run of a token. -/
def digitsOf (l : List Char) : List Char := l.takeWhile (fun c => c.isDigit)

/-- What follows the leading digit run. -/
def afterDigits (l : List Char) : List Char := l.drop (digitsOf l).length

/-- The fractional digit run (after a `'.'`), if any. -/
def fracOf (l1 : List Char) : List Char :=
  if peek (afterDigits l1) == '.' then digitsOf ((afterDigits l1).tail) else []

/-- What follows the fractional part. -/
def afterFrac (l1 : List Char) : List Char :=
  if peek (afterDigits l1) == '.' then (afterDigits l1).tail.drop (fracOf l1).length
  else afterDigits l1

/-- The exponent digits (after `'e'`/`'E'`), as a natural number (the scan
admits no sign after the exponent marker — a signed exponent fails its
terminator check before `atof` is reached). -/
def expOf (l1 : List Char) : Nat :=
  if peek (afterFrac l1) == 'e' || peek (afterFrac l1) == 'E' then
    natOfDigits (digitsOf ((afterFrac l1).tail))
  else 0

/-- The unsigned value `digits [. digits] [eE digits]` of a token. -/
def atofMag (l1 : List Char) : Rat :=
  ((natOfDigits (digitsOf l1) : Rat) +
      (natOfDigits (fracOf l1) : Rat) / ((10 : Rat) ^ (fracOf l1).length))
    * (10 : Rat) ^ (expOf l1)

/-- C `atof` on the scanned token `[+-]? digits* ['.' digits*] [eE digits*]`. -/
def atof (l : List Char) : Rat :=
  if peek l == '-' then -(atofMag l.tail)
  else if peek l == '+' then atofMag l.tail
  else atofMag l

/-- The scanning loop of `parser::parse_number`: consume digits, `'.'`,
`'e'`/`'E'`, tracking the decimal/exponent flags and raising the C++
errors for a repeated dot or exponent. -/
def scanNum : List Char → Bool → Bool → Except String (List Char × Bool × Bool × List Char)
  | [], isdec, isexp => .ok ([], isdec, isexp, [])
  | c :: rest, isdec, isexp =>
    if c.isDigit || c == '.' || c == 'e' || c == 'E' then
      if (c == 'e' || c == 'E') && isexp then
        .error "syntax error: bad numeric literal"
      else if c == '.' && (isdec || isexp) then
        .error "syntax error: bad numeric literal"
      else
        let isexp' := isexp || c == 'e' || c == 'E'
        let isdec' := isdec || c == '.'
        match scanNum rest isdec' isexp' with
        | .ok (tok, d, x, r) => .ok (c :: tok, d, x, r)
        | .error e => .error e
    else .ok ([], isdec, isexp, c :: rest)

/-- The sign character consumed by `parse_number`, if any. -/
def numSign (s : List Char) : List Char :=
  if peek s == '+' || peek s == '-' then [peek s] else []

/-- The remainder handed to the scan loop after the optional sign. -/
def numBody (s : List Char) : List Char :=
  if peek s == '+' || peek s == '-' then s.tail else s

/-- The tail of `parser::parse_number` once the scan loop has returned:
check the terminator, then build an `f64` (decimal or exponent seen) or an
`i32` from the signed token. -/
def pnumFinish (sgn : List Char) :
    Except String (List Char × Bool × Bool × List Char) →
      Except String (Expr × List Char)
  | .error e => .error e
  | .ok (tok, isdec, isexp, rest) =>
    if !(isSpaceC (peek rest) || rest.isEmpty || peek rest == ')') then
      .error "syntax error: bad numeric literal"
    else if isdec || isexp then .ok (Expr.f64 (atof (sgn ++ tok)) "", rest)
    else .ok (Expr.i32 (atoi (sgn ++ tok)) "", rest)

/-- `parser::parse_number`. -/
def parse_number (s : List Char) : Except String (Expr × List Char) :=
  pnumFinish (numSign s) (scanNum (numBody s) false false)

/-- `parser::parse_symbol`: the maximal run of symbol characters. -/
def parse_symbol (s : List Char) : Expr × List Char :=
  (Expr.sym (String.mk (s.takeWhile is_symbol_character)) "",
    s.drop (s.takeWhile is_symbol_character).length)

/-- `parser::parse_single_quoted_string`; `s` begins at the opening
quote. -/
def parse_quoted (s : List Char) : Except String (Expr × List Char) :=
  match s with
  | _ :: rest =>
    match rest.drop (rest.takeWhile (fun c => !(c == '\''))).length with
    | [] => .error "syntax error: unterminated string"
    | _ :: after2 =>
      if !(isSpaceC (peek after2) || after2.isEmpty || peek after2 == ')') then
        .error "syntax error: non-whitespace character following single-quoted string"
      else .ok (Expr.str (String.mk (rest.takeWhile (fun c => !(c == '\'')))) "", after2)
  | [] => .error "syntax error: unterminated string"

theorem gnpAux_shrink :
    ∀ (s acc : List Char) (kws : String × List Char),
      gnpAux s acc = some kws → kws.2.length < s.length := by
  intro s
  induction s with
  | nil => intro acc kws h; cases h
  | cons c rest ih =>
    intro acc kws h
    unfold gnpAux at h
    by_cases hsym : is_symbol_character c
    · rw [if_pos hsym] at h
      by_cases heq : peek rest == '='
      · rw [if_pos heq] at h
        cases h
        have : rest.tail.length ≤ rest.length := by
          cases rest <;> simp [List.tail]
        simp only [List.length_cons]
        omega
      · rw [if_neg heq] at h
        have := ih (c :: acc) kws h
        simp only [List.length_cons]
        omega
    · rw [if_neg hsym] at h
      cases h

theorem get_named_part_shrink (s : List Char) (kws : String × List Char)
    (h : get_named_part s = some kws) : kws.2.length < s.length :=
  gnpAux_shrink s [] kws h

mutual
/-- `parser::parse_part`; `kw` is the keyword state of the C++ while
loop.  Exhausted input returns the default expression (without the
keyword), as in the source. -/
def parse_part (kw : String) (s : List Char) : Except String (Expr × List Char) :=
  match s with
  | [] => .ok (Expr.none "", [])
  | c :: rest =>
    if isSpaceC c then parse_part kw rest
    else
      match hnp : get_named_part (c :: rest) with
      | some kws => parse_part kws.1 kws.2
      | Option.none =>
        if is_number c (peek rest) (peek rest.tail) then
          match parse_number (c :: rest) with
          | .ok es => .ok (es.1.keyed kw, es.2)
          | .error err => .error err
        else if is_leading_symbol_character c then
          let es := parse_symbol (c :: rest)
          .ok (es.1.keyed kw, es.2)
        else if c == '\'' then
          match parse_quoted (c :: rest) with
          | .ok es => .ok (es.1.keyed kw, es.2)
          | .error err => .error err
        else if c == '(' then
          match parse_expression (c :: rest) with
          | .ok es => .ok (es.1.keyed kw, es.2)
          | .error err => .error err
        else .error ("syntax error: unknown character '" ++ String.mk [c] ++ "'")
termination_by 3 * s.length + 1
decreasing_by
  all_goals simp only [List.length_cons]
  · omega
  · have := get_named_part_shrink _ _ hnp
    simp only [List.length_cons] at this
    omega
  · omega

/-- `parser::parse_expression`; `s` begins at the `'('`.
`find_closing_parentheses` is folded into the interior loop: the loop runs
to the matching `')'` — the first `')'` met at depth zero, nested tables
and quoted strings being consumed whole by `parse_part` exactly as the
balance scan skips them — and meeting the end of input first is the
unterminated-expression error the scan would have thrown. -/
def parse_expression (s : List Char) : Except String (Expr × List Char) :=
  match s with
  | [] => .error "unterminated expression"
  | _ :: rest => parse_expr_body rest []
termination_by 3 * s.length
decreasing_by simp only [List.length_cons]; omega

/-- The interior loop of `parse_expression`: skip whitespace, stop at the
closing `')'`, parse parts; `acc` holds the reversed parts. -/
def parse_expr_body (s : List Char) (acc : List Expr) : Except String (Expr × List Char) :=
  match s with
  | [] => .error "unterminated expression"
  | c :: rest =>
    if c == ')' then
      .ok (if acc.isEmpty then Expr.none "" else Expr.table acc.reverse "", rest)
    else if isSpaceC c then parse_expr_body rest acc
    else
      match hpp : parse_part "" (c :: rest) with
      | .ok es =>
        if hlen : es.2.length < rest.length + 1 then
          parse_expr_body es.2 (es.1 :: acc)
        else .error "unterminated expression"
        -- the guard is dead code: a successful `parse_part` on non-space,
        -- non-`')'` input always consumes at least one character
      | .error err => .error err
termination_by 3 * s.length + 2
decreasing_by
  all_goals simp only [List.length_cons]
  · omega
  · omega
  · omega
end

/-- The top-level loop of `parser::parse` for sources not beginning with
`'('`, with fuel for the C++ `while (*c != '\0')` loop (`parse_part`
always consumes input, so fuel `length + 1` never runs out). -/
def parseTopF : Nat → List Char → List Expr → Except String Expr
  | _, [], parts =>
    .ok (match parts.reverse with
      | [e] => e
      | l => Expr.mkTable l)
  | 0, _ :: _, _ => .error "fuel exhausted"
  | n + 1, s, parts =>
    match parse_part "" s with
    | .ok es => parseTopF n es.2 (es.1 :: parts)
    | .error err => .error err

/-- `parser::parse` / `crt::parse`: a source starting with `'('` yields the
single leading expression; otherwise the parts are collected and a lone
part is returned bare. -/
def parse (src : String) : Except String Expr :=
  if peek src.toList == '(' then
    match parse_part "" src.toList with
    | .ok es => .ok es.1
    | .error err => .error err
  else parseTopF (src.toList.length + 1) src.toList []

/-! ## The resolution algorithms (`crt-algorithm.hpp`) -/

/-- `crt::resolve_only(e, prods)`.  (`prods.count` / the `contains`
template test membership in the products map.) -/
def resolve_only (F : Interp) (e : Expr) (p : Ctx) : Ctx :=
  if !(amem p.items e.key) then
    if (Expr.symbols e).length = 0 then p.insert e
    else if (Expr.symbols e).all (fun s => amem p.items s) then
      p.insert (e.resolve F p)
    else p
  else p

/-- `crt::resolve_once(rules, prods)`: fold `resolve_only` over the rules. -/
def resolve_once (F : Interp) (rules : Ctx) (p : Ctx) : Ctx :=
  rules.items.foldl (fun p kv => resolve_only F kv.2 p) p

/-- `crt::resolve_full(rules, prods)`, with fuel for the C++
`while (true)` loop; each productive pass strictly grows the products, so
`rules.size + 1` passes always reach the fixed point (proved below). -/
def resolve_fullF (F : Interp) (rules : Ctx) : Nat → Ctx → Ctx
  | 0, p => p
  | n + 1, p =>
    let q := resolve_once F rules p
    if q.size = p.size then p else resolve_fullF F rules n q

/-- `crt::resolve_full(rules, prods)`. -/
def resolve_full (F : Interp) (rules : Ctx) (p : Ctx) : Ctx :=
  resolve_fullF F rules (rules.size + 1) p

/-- `crt::insert_invalidate(e, rules, prods)`. -/
def insert_invalidate (e : Expr) (rules prods : Ctx) : Ctx × Ctx :=
  (rules.insert e, prods.eraseSet (rules.referencing e.key))

/-! ## Association-list lemmas -/

section AListLemmas

variable {α : Type}

private theorem if_bt {β : Sort _} (a b : β) : (if (true = true) then a else b) = a := rfl

private theorem if_bf {β : Sort _} (a b : β) : (if (false = true) then a else b) = b := rfl

private theorem beq_false_of_ne {k k' : String} (h : k' ≠ k) : (k == k') = false := by
  simp [beq_iff_eq]; exact fun hh => h hh.symm

@[simp] theorem amem_nil (k : String) : amem ([] : List (String × α)) k = false := rfl

@[simp] theorem amem_cons (kv : String × α) (m : List (String × α)) (k : String) :
    amem (kv :: m) k = (kv.1 == k || amem m k) := by
  simp [amem]

@[simp] theorem afind?_nil (k : String) :
    afind? ([] : List (String × α)) k = Option.none := rfl

theorem afind?_cons (kv : String × α) (m : List (String × α)) (k : String) :
    afind? (kv :: m) k = if kv.1 == k then some kv.2 else afind? m k := by
  by_cases h : kv.1 == k <;> simp [afind?, List.find?_cons, h]

theorem aset_nil (k : String) (v : α) :
    aset ([] : List (String × α)) k v = [(k, v)] := by
  simp [aset, amem]

theorem aset_cons (kv : String × α) (m : List (String × α)) (k : String) (v : α) :
    aset (kv :: m) k v =
      if kv.1 == k then
        (k, v) :: m.map (fun kv => if kv.1 == k then (k, v) else kv)
      else kv :: aset m k v := by
  cases hb : (kv.1 == k) with
  | true =>
    rw [if_bt]
    unfold aset
    rw [show amem (kv :: m) k = true by simp [hb], if_bt, List.map_cons, hb, if_bt]
  | false =>
    rw [if_bf]
    unfold aset
    rw [show amem (kv :: m) k = amem m k by simp [hb]]
    cases hm : amem m k with
    | true => rw [if_bt, if_bt, List.map_cons, hb, if_bf]
    | false => rw [if_bf, if_bf, List.cons_append]

private theorem afind?_map_set_ne {k k' : String} (v : α) (h : k' ≠ k)
    (m : List (String × α)) :
    afind? (m.map (fun kv => if kv.1 == k then (k, v) else kv)) k' = afind? m k' := by
  induction m with
  | nil => rfl
  | cons kw rest ih =>
    rw [List.map_cons]
    cases hb : (kw.1 == k) with
    | true =>
      have hk : kw.1 = k := by simpa using hb
      rw [if_bt, afind?_cons, afind?_cons,
        show (((k, v) : String × α).1 == k') = false from beq_false_of_ne h,
        show (kw.1 == k') = false from by rw [hk]; exact beq_false_of_ne h,
        if_bf, if_bf]
      exact ih
    | false =>
      rw [if_bf, afind?_cons, afind?_cons]
      cases hc : (kw.1 == k') with
      | true => rw [if_bt, if_bt]
      | false => rw [if_bf, if_bf]; exact ih

private theorem amem_map_set_ne {k k' : String} (v : α) (h : k' ≠ k)
    (m : List (String × α)) :
    amem (m.map (fun kv => if kv.1 == k then (k, v) else kv)) k' = amem m k' := by
  induction m with
  | nil => rfl
  | cons kw rest ih =>
    rw [List.map_cons]
    cases hb : (kw.1 == k) with
    | true =>
      have hk : kw.1 = k := by simpa using hb
      rw [if_bt, amem_cons, amem_cons,
        show (((k, v) : String × α).1 == k') = false from beq_false_of_ne h,
        show (kw.1 == k') = false from by rw [hk]; exact beq_false_of_ne h, ih]
    | false => rw [if_bf, amem_cons, amem_cons, ih]

theorem afind?_aset_self (m : List (String × α)) (k : String) (v : α) :
    afind? (aset m k v) k = some v := by
  induction m with
  | nil =>
    rw [aset_nil, afind?_cons,
      show (((k, v) : String × α).1 == k) = true by simp, if_bt]
  | cons kv rest ih =>
    rw [aset_cons]
    cases hb : (kv.1 == k) with
    | true =>
      rw [if_bt, afind?_cons,
        show (((k, v) : String × α).1 == k) = true by simp, if_bt]
    | false => rw [if_bf, afind?_cons, hb, if_bf]; exact ih

theorem afind?_aset_ne (m : List (String × α)) (k k' : String) (v : α) (h : k' ≠ k) :
    afind? (aset m k v) k' = afind? m k' := by
  induction m with
  | nil =>
    rw [aset_nil, afind?_cons,
      show (((k, v) : String × α).1 == k') = false from beq_false_of_ne h, if_bf]
  | cons kv rest ih =>
    rw [aset_cons]
    cases hb : (kv.1 == k) with
    | true =>
      have hk : kv.1 = k := by simpa using hb
      rw [if_bt, afind?_cons, afind?_cons,
        show (((k, v) : String × α).1 == k') = false from beq_false_of_ne h,
        show (kv.1 == k') = false from by rw [hk]; exact beq_false_of_ne h,
        if_bf, if_bf]
      exact afind?_map_set_ne v h rest
    | false => rw [if_bf, afind?_cons, afind?_cons, ih]

theorem amem_aset_self (m : List (String × α)) (k : String) (v : α) :
    amem (aset m k v) k = true := by
  induction m with
  | nil => rw [aset_nil, amem_cons]; simp
  | cons kv rest ih =>
    rw [aset_cons]
    cases hb : (kv.1 == k) with
    | true => rw [if_bt, amem_cons]; simp
    | false => rw [if_bf, amem_cons, ih]; simp

theorem amem_aset_ne (m : List (String × α)) (k k' : String) (v : α) (h : k' ≠ k) :
    amem (aset m k v) k' = amem m k' := by
  induction m with
  | nil =>
    rw [aset_nil, amem_cons,
      show (((k, v) : String × α).1 == k') = false from beq_false_of_ne h]
    simp
  | cons kv rest ih =>
    rw [aset_cons]
    cases hb : (kv.1 == k) with
    | true =>
      have hk : kv.1 = k := by simpa using hb
      rw [if_bt, amem_cons, amem_cons,
        show (((k, v) : String × α).1 == k') = false from beq_false_of_ne h,
        show (kv.1 == k') = false from by rw [hk]; exact beq_false_of_ne h,
        amem_map_set_ne v h rest]
    | false => rw [if_bf, amem_cons, amem_cons, ih]

theorem length_aset (m : List (String × α)) (k : String) (v : α) :
    (aset m k v).length = if amem m k then m.length else m.length + 1 := by
  cases hm : amem m k with
  | true => rw [if_bt]; unfold aset; rw [hm, if_bt, List.length_map]
  | false =>
    rw [if_bf]; unfold aset
    rw [hm, if_bf, List.length_append, List.length_singleton]

theorem afind?_aerase (m : List (String × α)) (k k' : String) :
    afind? (aerase m k) k' = if k' = k then Option.none else afind? m k' := by
  induction m with
  | nil => unfold aerase; by_cases hk' : k' = k <;> simp [hk']
  | cons kv rest ih =>
    unfold aerase at ih ⊢
    rw [List.filter_cons]
    cases hb : (kv.1 == k) with
    | true =>
      rw [show (!true) = false from rfl, if_bf, ih]
      by_cases hk' : k' = k
      · rw [if_pos hk', if_pos hk']
      · have hk : kv.1 = k := by simpa using hb
        rw [if_neg hk', if_neg hk', afind?_cons,
          show (kv.1 == k') = false from by rw [hk]; exact beq_false_of_ne hk', if_bf]
    | false =>
      rw [show (!false) = true from rfl, if_bt, afind?_cons, afind?_cons, ih]
      cases hc : (kv.1 == k') with
      | true =>
        have hne : ¬ k' = k := by
          have hk2 : kv.1 = k' := by simpa using hc
          intro hh; rw [hh] at hk2; rw [hk2] at hb; simp at hb
        rw [if_bt, if_neg hne, if_bt]
      | false => rw [if_bf, if_bf]

theorem amem_aerase (m : List (String × α)) (k k' : String) :
    amem (aerase m k) k' = if k' = k then false else amem m k' := by
  induction m with
  | nil => unfold aerase; by_cases hk' : k' = k <;> simp [hk']
  | cons kv rest ih =>
    unfold aerase at ih ⊢
    rw [List.filter_cons]
    cases hb : (kv.1 == k) with
    | true =>
      rw [show (!true) = false from rfl, if_bf, ih]
      by_cases hk' : k' = k
      · rw [if_pos hk', if_pos hk']
      · have hk : kv.1 = k := by simpa using hb
        rw [if_neg hk', if_neg hk', amem_cons,
          show (kv.1 == k') = false from by rw [hk]; exact beq_false_of_ne hk',
          Bool.false_or]
    | false =>
      rw [show (!false) = true from rfl, if_bt, amem_cons, amem_cons, ih]
      by_cases hk' : k' = k
      · rw [if_pos hk', if_pos hk',
          show (kv.1 == k') = false from by rw [hk']; exact hb]
        simp
      · rw [if_neg hk', if_neg hk']

end AListLemmas

/-! ## Context lemmas -/

theorem insert_items (c : Ctx) (e : Expr) :
    (c.insert e).items = aset c.items e.key e := rfl

theorem erase_items (c : Ctx) (k : String) :
    (c.erase k).items = aerase c.items k := rfl

theorem size_insert (c : Ctx) (e : Expr) :
    (c.insert e).size = if amem c.items e.key then c.size else c.size + 1 := by
  show (aset c.items e.key e).length = _
  rw [length_aset]; rfl

/-- Erasing never resurrects a key. -/
theorem afind?_erase_none (c : Ctx) (j k : String)
    (h : afind? c.items k = Option.none) :
    afind? (c.erase j).items k = Option.none := by
  rw [erase_items, afind?_aerase]
  by_cases hk : k = j <;> simp [hk, h]

/-- `context::erase(set)` removes every key of the set from the items. -/
theorem afind?_eraseSet_none (ks : List String) (c : Ctx) (k : String) :
    (k ∈ ks ∨ afind? c.items k = Option.none) →
    afind? (c.eraseSet ks).items k = Option.none := by
  induction ks generalizing c with
  | nil =>
    intro h
    rcases h with h | h
    · cases h
    · exact h
  | cons j ks ih =>
    intro h
    show afind? (Ctx.eraseSet (c.erase j) ks).items k = Option.none
    rcases h with h | h
    · rcases List.mem_cons.1 h with heq | hmem
      · exact ih (c.erase j)
          (Or.inr (by rw [erase_items, afind?_aerase, if_pos heq]))
      · exact ih (c.erase j) (Or.inl hmem)
    · exact ih (c.erase j) (Or.inr (afind?_erase_none c j k h))

/-! ## Claim C3: `insert_invalidate` drops everything referencing the key -/

/-- **C3.** `insert_invalidate(e, c, p)` returns the pair `(c.insert(e), p′)`
where `p′` no longer binds any key of `c.referencing(e.key())` — the new
rule's own name and every rule transitively depending on it in the
pre-insert rules `c`. -/
theorem insert_invalidate_spec (e : Expr) (rules prods : Ctx) (k : String)
    (hk : k ∈ rules.referencing e.key) :
    (insert_invalidate e rules prods).1 = rules.insert e ∧
    afind? (insert_invalidate e rules prods).2.items k = Option.none := by
  refine ⟨rfl, ?_⟩
  exact afind?_eraseSet_none _ prods k (Or.inl hk)

/-- Witness for C3: in the context `{a = b}`, the key `a` (which references
`b`) is dropped from the products by `insert_invalidate` of a rule keyed
`b`. -/
theorem insert_invalidate_spec_witness :
    let rules := Ctx.empty.insert (Expr.sym "b" "a")
    let prods := (Ctx.empty.insert (Expr.i32 1 "a")).insert (Expr.i32 2 "b")
    let e := Expr.i32 3 "b"
    (insert_invalidate e rules prods).1 = rules.insert e ∧
    afind? (insert_invalidate e rules prods).2.items "a" = Option.none :=
  insert_invalidate_spec (Expr.i32 3 "b")
    (Ctx.empty.insert (Expr.sym "b" "a"))
    ((Ctx.empty.insert (Expr.i32 1 "a")).insert (Expr.i32 2 "b"))
    "a" (by decide)

/-! ## Claim C4: the guard structure of `resolve_only` -/

/-- Case analysis of `resolve_only`: it either returns the products
unchanged, or inserts a single expression carrying the rule's key, which
was previously absent. -/
theorem resolve_only_cases (F : Interp) (e : Expr) (p : Ctx) :
    resolve_only F e p = p ∨
    (amem p.items e.key = false ∧
      ∃ x : Expr, x.key = e.key ∧ resolve_only F e p = p.insert x) := by
  unfold resolve_only
  cases hm : amem p.items e.key with
  | true => rw [show (!true) = false from rfl, if_bf]; exact Or.inl rfl
  | false =>
    rw [show (!false) = true from rfl, if_bt]
    by_cases h0 : (Expr.symbols e).length = 0
    · rw [if_pos h0]
      exact Or.inr ⟨rfl, e, rfl, rfl⟩
    · rw [if_neg h0]
      by_cases hall : (Expr.symbols e).all (fun s => amem p.items s) = true
      · rw [if_pos hall]
        exact Or.inr ⟨rfl, e.resolve F p, key_resolve F p e, rfl⟩
      · rw [if_neg hall]
        exact Or.inl rfl

/-- **C4.** `resolve_only(e, p)` returns `p` unchanged when `e.key()` is
present in `p` or some symbol of `e` is absent from `p`; when the key is
absent it inserts `e` itself if `e` has no symbols, and
`e.resolve(p, call_adapter())` if every symbol of `e` is present. -/
theorem resolve_only_spec (F : Interp) (e : Expr) (p : Ctx) :
    (amem p.items e.key = true → resolve_only F e p = p) ∧
    (amem p.items e.key = false → Expr.symbols e = [] →
      resolve_only F e p = p.insert e) ∧
    (amem p.items e.key = false → Expr.symbols e ≠ [] →
      (∀ s ∈ Expr.symbols e, amem p.items s = true) →
      resolve_only F e p = p.insert (e.resolve F p)) ∧
    ((∃ s ∈ Expr.symbols e, amem p.items s = false) →
      resolve_only F e p = p) := by
  refine ⟨?_, ?_, ?_, ?_⟩
  · intro hm
    unfold resolve_only
    rw [hm, show (!true) = false from rfl, if_bf]
  · intro hm h0
    unfold resolve_only
    rw [hm, show (!false) = true from rfl, if_bt, if_pos (by rw [h0]; rfl)]
  · intro hm hne hall
    unfold resolve_only
    rw [hm, show (!false) = true from rfl, if_bt,
      if_neg (by simpa using hne), if_pos (List.all_eq_true.2 hall)]
  · intro habs
    unfold resolve_only
    cases hm : amem p.items e.key with
    | true => rw [show (!true) = false from rfl, if_bf]
    | false =>
      rw [show (!false) = true from rfl, if_bt]
      obtain ⟨s, hs, habs⟩ := habs
      have hne : (Expr.symbols e).length ≠ 0 := by
        intro h0
        rw [List.length_eq_zero] at h0
        rw [h0] at hs
        cases hs
      have hall : ¬ ((Expr.symbols e).all (fun s => amem p.items s) = true) := by
        intro hall
        have := List.all_eq_true.1 hall s hs
        rw [habs] at this
        cases this
      rw [if_neg hne, if_neg hall]

/-- Witness for C4: concrete instances of all four guards. -/
theorem resolve_only_spec_witness :
    let F : Interp := fun _ _ => Expr.none ""
    let pA := Ctx.empty.insert (Expr.i32 9 "a")
    -- key already present: unchanged
    (resolve_only F (Expr.i32 1 "a") pA = pA) ∧
    -- key absent, no symbols: insert the expression itself
    (resolve_only F (Expr.i32 1 "b") pA = pA.insert (Expr.i32 1 "b")) ∧
    -- key absent, all symbols present: insert the resolved expression
    (resolve_only F (Expr.sym "a" "b") pA =
      pA.insert ((Expr.sym "a" "b").resolve F pA)) ∧
    -- key absent, a symbol missing: unchanged
    (resolve_only F (Expr.sym "z" "b") pA = pA) := by
  intro F pA
  refine ⟨?_, ?_, ?_, ?_⟩
  · exact (resolve_only_spec F (Expr.i32 1 "a") pA).1 (by decide)
  · exact (resolve_only_spec F (Expr.i32 1 "b") pA).2.1 (by decide) rfl
  · exact (resolve_only_spec F (Expr.sym "a" "b") pA).2.2.1 (by decide)
      (by decide) (by decide)
  · exact (resolve_only_spec F (Expr.sym "z" "b") pA).2.2.2
      ⟨"z", by decide, by decide⟩

/-! ## Claim C10: `resolve_once` never overwrites an existing product -/

/-- A single `resolve_only` step preserves present bindings. -/
theorem resolve_only_frame (F : Interp) (e : Expr) (p : Ctx) (k : String)
    (hk : amem p.items k = true) :
    afind? (resolve_only F e p).items k = afind? p.items k ∧
    amem (resolve_only F e p).items k = true := by
  rcases resolve_only_cases F e p with h | ⟨hm, x, hx, h⟩
  · rw [h]; exact ⟨rfl, hk⟩
  · have hne : k ≠ x.key := by
      intro hh
      rw [hx] at hh
      rw [hh] at hk
      rw [hk] at hm
      cases hm
    rw [h, insert_items, afind?_aset_ne _ _ _ _ hne, amem_aset_ne _ _ _ _ hne]
    exact ⟨rfl, hk⟩

theorem foldl_resolve_frame (F : Interp) (l : List (String × Expr)) :
    ∀ (p : Ctx) (k : String), amem p.items k = true →
      afind? (l.foldl (fun p kv => resolve_only F kv.2 p) p).items k
        = afind? p.items k ∧
      amem (l.foldl (fun p kv => resolve_only F kv.2 p) p).items k = true := by
  induction l with
  | nil => exact fun p k hk => ⟨rfl, hk⟩
  | cons kv rest ih =>
    intro p k hk
    have step := resolve_only_frame F kv.2 p k hk
    have tail := ih (resolve_only F kv.2 p) k step.2
    exact ⟨tail.1.trans step.1, tail.2⟩

/-- **C10.** A resolution pass maps every key already present in the
products to exactly its previous value: `resolve_once` only adds bindings
for absent keys, and never overwrites or removes an existing binding. -/
theorem resolve_once_frame (F : Interp) (rules p : Ctx) (k : String)
    (hk : amem p.items k = true) :
    afind? (resolve_once F rules p).items k = afind? p.items k ∧
    amem (resolve_once F rules p).items k = true :=
  foldl_resolve_frame F rules.items p k hk

/-- Witness for C10: the binding `a ↦ 9` survives a resolution pass that
adds a binding for `b`. -/
theorem resolve_once_frame_witness :
    let F : Interp := fun _ _ => Expr.none ""
    let rules := Ctx.empty.insert (Expr.i32 1 "b")
    let p := Ctx.empty.insert (Expr.i32 9 "a")
    afind? (resolve_once F rules p).items "a" = afind? p.items "a" ∧
    amem (resolve_once F rules p).items "a" = true :=
  resolve_once_frame (fun _ _ => Expr.none "")
    (Ctx.empty.insert (Expr.i32 1 "b"))
    (Ctx.empty.insert (Expr.i32 9 "a")) "a" (by decide)

/-! ## Claim C5: monotonicity and the fixed point of `resolve_full` -/

theorem resolve_only_size (F : Interp) (e : Expr) (p : Ctx) :
    (resolve_only F e p).size = p.size ∨
    (resolve_only F e p).size = p.size + 1 := by
  rcases resolve_only_cases F e p with h | ⟨hm, x, hx, h⟩
  · rw [h]; exact Or.inl rfl
  · rw [h, size_insert, hx, hm, if_bf]
    exact Or.inr rfl

theorem foldl_resolve_size_mono (F : Interp) (l : List (String × Expr)) :
    ∀ p : Ctx, p.size ≤ (l.foldl (fun p kv => resolve_only F kv.2 p) p).size := by
  induction l with
  | nil => exact fun p => le_refl _
  | cons kv rest ih =>
    intro p
    rcases resolve_only_size F kv.2 p with h | h
    · calc p.size = (resolve_only F kv.2 p).size := h.symm
        _ ≤ _ := ih _
    · calc p.size ≤ (resolve_only F kv.2 p).size := by omega
        _ ≤ _ := ih _

/-- If a whole pass did not change the size, every step was the identity. -/
theorem foldl_resolve_eq_of_size_eq (F : Interp) (l : List (String × Expr)) :
    ∀ p : Ctx,
      (l.foldl (fun p kv => resolve_only F kv.2 p) p).size = p.size →
      l.foldl (fun p kv => resolve_only F kv.2 p) p = p := by
  induction l with
  | nil => exact fun p _ => rfl
  | cons kv rest ih =>
    intro p hsz
    rcases resolve_only_cases F kv.2 p with h | ⟨hm, x, hx, h⟩
    · rw [List.foldl_cons, h] at hsz ⊢
      exact ih p hsz
    · exfalso
      have h1 : (resolve_only F kv.2 p).size = p.size + 1 := by
        rw [h, size_insert, hx, hm, if_bf]
      have h2 := foldl_resolve_size_mono F rest (resolve_only F kv.2 p)
      rw [List.foldl_cons] at hsz
      omega

/-- The key set of a products context. -/
def pkeys (p : Ctx) : Finset String := (p.items.map Prod.fst).toFinset

/-- The set of keys a rules context can contribute to the products. -/
def rkeys (rules : Ctx) : Finset String :=
  (rules.items.map (fun kv => kv.2.key)).toFinset

theorem mem_pkeys_iff (p : Ctx) (k : String) :
    k ∈ pkeys p ↔ amem p.items k = true := by
  simp [pkeys, List.mem_map, amem, List.any_eq_true, beq_iff_eq]

/-- A pass only ever adds keys drawn from the rules' value keys. -/
theorem foldl_resolve_new_key (F : Interp) (l : List (String × Expr)) :
    ∀ p : Ctx,
      (l.foldl (fun p kv => resolve_only F kv.2 p) p).size ≠ p.size →
      ∃ k, k ∈ l.map (fun kv => kv.2.key) ∧ amem p.items k = false ∧
        amem (l.foldl (fun p kv => resolve_only F kv.2 p) p).items k = true := by
  induction l with
  | nil => exact fun p h => absurd rfl h
  | cons kv rest ih =>
    intro p hsz
    rcases resolve_only_cases F kv.2 p with h | ⟨hm, x, hx, h⟩
    · rw [List.foldl_cons, h] at hsz ⊢
      obtain ⟨k, hk1, hk2, hk3⟩ := ih p hsz
      refine ⟨k, ?_, hk2, hk3⟩
      rw [List.map_cons]
      exact List.mem_cons.2 (Or.inr hk1)
    · refine ⟨x.key, by rw [List.map_cons]; exact List.mem_cons.2 (Or.inl hx),
        by rw [hx]; exact hm, ?_⟩
      rw [List.foldl_cons, h]
      have hmem : amem (p.insert x).items x.key = true := by
        rw [insert_items]; exact amem_aset_self _ _ _
      exact (foldl_resolve_frame F rest (p.insert x) x.key hmem).2

theorem foldl_resolve_mem_mono (F : Interp) (l : List (String × Expr))
    (p : Ctx) (k : String) (hk : amem p.items k = true) :
    amem (l.foldl (fun p kv => resolve_only F kv.2 p) p).items k = true :=
  (foldl_resolve_frame F l p k hk).2

/-- Fuel sufficiency: once the fuel exceeds the number of rule keys still
missing from the products, `resolve_fullF` reaches a fixed point of
`resolve_once`. -/
theorem resolve_fullF_fix (F : Interp) (rules : Ctx) :
    ∀ (n : Nat) (p : Ctx), (rkeys rules \ pkeys p).card < n →
      resolve_once F rules (resolve_fullF F rules n p)
        = resolve_fullF F rules n p := by
  intro n
  induction n with
  | zero => intro p h; omega
  | succ n ih =>
    intro p hcard
    have hunfold : resolve_fullF F rules (n + 1) p =
        if (resolve_once F rules p).size = p.size then p
        else resolve_fullF F rules n (resolve_once F rules p) := rfl
    rw [hunfold]
    by_cases hsz : (resolve_once F rules p).size = p.size
    · rw [if_pos hsz]
      exact foldl_resolve_eq_of_size_eq F rules.items p hsz
    · rw [if_neg hsz]
      refine ih (resolve_once F rules p) ?_
      obtain ⟨k, hk1, hk2, hk3⟩ := foldl_resolve_new_key F rules.items p hsz
      have hsub : pkeys p ⊆ pkeys (resolve_once F rules p) := by
        intro a ha
        rw [mem_pkeys_iff] at ha ⊢
        exact foldl_resolve_mem_mono F rules.items p a ha
      have hdiff : rkeys rules \ pkeys (resolve_once F rules p) ⊆
          rkeys rules \ pkeys p := by
        intro a ha
        rw [Finset.mem_sdiff] at ha ⊢
        exact ⟨ha.1, fun hc => ha.2 (hsub hc)⟩
      have hkin : k ∈ rkeys rules \ pkeys p := by
        rw [Finset.mem_sdiff, mem_pkeys_iff]
        refine ⟨by rw [rkeys, List.mem_toFinset]; exact hk1, ?_⟩
        rw [hk2]; exact fun hc => by cases hc
      have hkout : k ∉ rkeys rules \ pkeys (resolve_once F rules p) := by
        rw [Finset.mem_sdiff, mem_pkeys_iff]
        exact fun hc => hc.2 hk3
      have : (rkeys rules \ pkeys (resolve_once F rules p)).card <
          (rkeys rules \ pkeys p).card :=
        Finset.card_lt_card ⟨hdiff, fun hcontra => hkout (hcontra hkin)⟩
      omega

theorem card_missing_lt (rules p : Ctx) :
    (rkeys rules \ pkeys p).card < rules.size + 1 := by
  have h1 : (rkeys rules \ pkeys p).card ≤ (rkeys rules).card :=
    Finset.card_le_card (Finset.sdiff_subset)
  have h2 : (rkeys rules).card ≤ rules.size := by
    calc (rkeys rules).card ≤ (rules.items.map (fun kv => kv.2.key)).length :=
          List.toFinset_card_le _
      _ = rules.size := by rw [List.length_map]; rfl
  omega

/-- **C5.** `resolve_once(c, p).size() ≥ p.size()`;
`resolve_full(c, {})` is a fixed point of `resolve_once(c, ·)`; and
`resolve_full` is idempotent from the empty products. -/
theorem resolve_full_spec (F : Interp) (rules p : Ctx) :
    p.size ≤ (resolve_once F rules p).size ∧
    resolve_once F rules (resolve_full F rules Ctx.empty)
      = resolve_full F rules Ctx.empty ∧
    resolve_full F rules (resolve_full F rules Ctx.empty)
      = resolve_full F rules Ctx.empty := by
  have hfix : resolve_once F rules (resolve_full F rules Ctx.empty)
      = resolve_full F rules Ctx.empty :=
    resolve_fullF_fix F rules (rules.size + 1) Ctx.empty
      (card_missing_lt rules Ctx.empty)
  refine ⟨foldl_resolve_size_mono F rules.items p, hfix, ?_⟩
  have hunfold : resolve_full F rules (resolve_full F rules Ctx.empty) =
      if (resolve_once F rules (resolve_full F rules Ctx.empty)).size
          = (resolve_full F rules Ctx.empty).size
      then resolve_full F rules Ctx.empty
      else resolve_fullF F rules rules.size
        (resolve_once F rules (resolve_full F rules Ctx.empty)) := rfl
  rw [hunfold, if_pos (by rw [hfix])]

/-! ## Claim C6: the string coercion of `Data` expressions (code bug) -/

/-- **C6** (code bug).  The source's `as_str` data arm is
`valdata ? "()" : valdata->type_name()`: a NON-null handle yields `"()"`
— not its type name as the spec's coercion table states — and the branch
taken for a null handle dereferences the null pointer (modelled
`Option.none`).  The two branches of the ternary are swapped. -/
theorem as_str_data_bug :
    Expr.as_str (Expr.data (some (0, "linear_axis", Expr.none "")) "") = some "()" ∧
    some "()" ≠ some "linear_axis" ∧
    Expr.as_str (Expr.data Option.none "") = Option.none := by
  refine ⟨rfl, by decide, rfl⟩

/-! ## Parser lemmas: character classes and token scans -/

/-- Characters the numeric scan loop consumes. -/
def numCharB (c : Char) : Bool := c.isDigit || c == '.' || c == 'e' || c == 'E'

/-- The terminator condition checked after numbers and strings, and the
shape of every remainder `unparse` leaves after a part: end of input,
whitespace, or `')'`. -/
def okAfterB (r : List Char) : Bool :=
  r.isEmpty || isSpaceC (peek r) || peek r == ')'

theorem space_cases {c : Char} (h : isSpaceC c = true) :
    c = ' ' ∨ c = '\t' ∨ c = '\n' ∨ c = '\x0b' ∨ c = '\x0c' ∨ c = '\r' := by
  simpa [isSpaceC, or_assoc] using h

theorem space_not_sym {c : Char} (h : isSpaceC c = true) :
    is_symbol_character c = false := by
  rcases space_cases h with rfl | rfl | rfl | rfl | rfl | rfl <;> decide

theorem space_not_numchar {c : Char} (h : isSpaceC c = true) :
    numCharB c = false := by
  rcases space_cases h with rfl | rfl | rfl | rfl | rfl | rfl <;> decide

theorem space_ne_eq {c : Char} (h : isSpaceC c = true) : c ≠ '=' := by
  rcases space_cases h with rfl | rfl | rfl | rfl | rfl | rfl <;> decide

theorem okAfter_shape {r : List Char} (h : okAfterB r = true) :
    r = [] ∨ isSpaceC (peek r) = true ∨ peek r = ')' := by
  unfold okAfterB at h
  rcases (by simpa [or_assoc] using h :
      r.isEmpty = true ∨ isSpaceC (peek r) = true ∨ peek r = ')') with h1 | h1 | h1
  · exact Or.inl (List.isEmpty_iff.1 h1)
  · exact Or.inr (Or.inl h1)
  · exact Or.inr (Or.inr h1)

theorem okAfter_not_sym {r : List Char} (h : okAfterB r = true) :
    is_symbol_character (peek r) = false := by
  rcases okAfter_shape h with rfl | h1 | h1
  · decide
  · exact space_not_sym h1
  · rw [h1]; decide

theorem okAfter_ne_eq {r : List Char} (h : okAfterB r = true) :
    peek r ≠ '=' := by
  rcases okAfter_shape h with rfl | h1 | h1
  · decide
  · exact space_ne_eq h1
  · rw [h1]; decide

theorem okAfter_not_numchar {r : List Char} (h : okAfterB r = true) :
    numCharB (peek r) = false := by
  rcases okAfter_shape h with rfl | h1 | h1
  · decide
  · exact space_not_numchar h1
  · rw [h1]; decide

theorem okAfter_term {r : List Char} (h : okAfterB r = true) :
    (!(isSpaceC (peek r) || r.isEmpty || peek r == ')')) = false := by
  rcases okAfter_shape h with rfl | h1 | h1
  · simp
  · simp [h1]
  · simp [h1]

/-- A remainder on which the named-part scan of `get_named_part` is bound
to give up. -/
def gnpSafe : List Char → Prop
  | [] => True
  | c :: r => is_symbol_character c = true → (peek r ≠ '=' ∧ gnpSafe r)

theorem gnpAux_safe_none : ∀ (s : List Char), gnpSafe s → ∀ acc, gnpAux s acc = Option.none := by
  intro s
  induction s with
  | nil => intro _ _; rfl
  | cons c r ih =>
    intro hsafe acc
    unfold gnpAux
    by_cases hsym : is_symbol_character c = true
    · obtain ⟨hne, hrec⟩ := hsafe hsym
      rw [if_pos hsym, if_neg (by simpa using hne)]
      exact ih hrec (c :: acc)
    · rw [if_neg hsym]

theorem okAfter_gnpSafe {r : List Char} (h : okAfterB r = true) : gnpSafe r := by
  rcases okAfter_shape h with rfl | h1 | h1
  · trivial
  · cases r with
    | nil => trivial
    | cons c rr =>
      intro hsym
      have h1' : isSpaceC c = true := h1
      exact absurd hsym (by rw [space_not_sym h1']; exact Bool.false_ne_true)
  · cases r with
    | nil => trivial
    | cons c rr =>
      intro hsym
      have : c = ')' := h1
      rw [this] at hsym
      exact absurd hsym (by decide)

theorem gnpSafe_append {l r : List Char} (hl : ∀ c ∈ l, c ≠ '=')
    (hr : peek r ≠ '=') (hsafe : gnpSafe r) : gnpSafe (l ++ r) := by
  induction l with
  | nil => exact hsafe
  | cons c l ih =>
    intro _
    constructor
    · cases l with
      | nil => exact hr
      | cons d l2 => exact hl d (by simp)
    · exact ih (fun c hc => hl c (by simp [hc]))

theorem sym_ne_eq {c : Char} (h : is_symbol_character c = true) : c ≠ '=' := by
  intro hh
  rw [hh] at h
  exact absurd h (by decide)

/-- The named-part scan finds a well-formed keyword before `'='`. -/
theorem gnpAux_found :
    ∀ (k : List Char) (r acc : List Char), k ≠ [] →
      (∀ c ∈ k, is_symbol_character c = true) →
      gnpAux (k ++ '=' :: r) acc = some (String.mk (acc.reverse ++ k), r) := by
  intro k
  induction k with
  | nil => intro r acc h; exact absurd rfl h
  | cons c k ih =>
    intro r acc _ hsym
    rw [List.cons_append]
    unfold gnpAux
    rw [if_pos (hsym c (by simp))]
    cases k with
    | nil => simp [peek]
    | cons d k2 =>
      have hd : is_symbol_character d = true := hsym d (by simp)
      rw [show peek ((d :: k2) ++ '=' :: r) = d from rfl]
      rw [if_neg (by simpa using sym_ne_eq hd)]
      rw [ih r (c :: acc) (by simp) (fun x hx => hsym x (by simp [hx]))]
      simp

theorem takeWhile_append_of_all {p : Char → Bool} :
    ∀ (l r : List Char), (∀ c ∈ l, p c = true) → p (peek r) = false →
      (l ++ r).takeWhile p = l ∧ (l ++ r).drop l.length = r := by
  intro l
  induction l with
  | nil =>
    intro r _ hr
    refine ⟨?_, rfl⟩
    cases r with
    | nil => rfl
    | cons c rr =>
      have hc : p c = false := hr
      simp [List.takeWhile_cons, hc]
  | cons c l ih =>
    intro r hl hr
    obtain ⟨h1, h2⟩ := ih r (fun x hx => hl x (by simp [hx])) hr
    constructor
    · have hc : p c = true := hl c (by simp)
      simp [List.takeWhile_cons, hc, h1]
    · simpa using h2

theorem peek_append_ne_nil {l r : List Char} (h : l ≠ []) :
    peek (l ++ r) = peek l := by
  cases l with
  | nil => exact absurd rfl h
  | cons c ll => rfl

/-! ## Parser lemmas: digits and numeric tokens -/

theorem digitChar_isDigit (n : Nat) : (digitChar n).isDigit = true := by
  unfold digitChar
  split_ifs <;> decide

theorem digitChar_val (n : Nat) (h : n < 10) : (digitChar n).toNat - 48 = n := by
  interval_cases n <;> decide

private theorem beq_false_of_digit {c d : Char} (h : c.isDigit = true)
    (hd : d.isDigit = false) : (c == d) = false := by
  cases hb : (c == d) with
  | true =>
    have : c = d := by simpa using hb
    rw [this] at h
    rw [h] at hd
    cases hd
  | false => rfl

theorem digit_sym {c : Char} (h : c.isDigit = true) :
    is_symbol_character c = true := by
  simp [is_symbol_character, h]

theorem digit_not_space {c : Char} (h : c.isDigit = true) : isSpaceC c = false := by
  cases hb : isSpaceC c with
  | false => rfl
  | true =>
    rcases space_cases hb with rfl | rfl | rfl | rfl | rfl | rfl <;>
      exact absurd h (by decide)

theorem natDigits_ne_nil (n : Nat) : natDigits n ≠ [] := by
  unfold natDigits
  by_cases h : n < 10
  · rw [if_pos h]; simp
  · rw [if_neg h]; simp

theorem natDigits_all_digit : ∀ n, ∀ c ∈ natDigits n, c.isDigit = true := by
  intro n
  induction n using Nat.strong_induction_on with
  | _ n ih =>
    unfold natDigits
    by_cases h : n < 10
    · rw [if_pos h]
      intro c hc
      rw [List.mem_singleton.1 hc]
      exact digitChar_isDigit n
    · rw [if_neg h]
      intro c hc
      rcases List.mem_append.1 hc with hc | hc
      · exact ih (n / 10) (Nat.div_lt_self (by omega) (by omega)) c hc
      · rw [List.mem_singleton.1 hc]
        exact digitChar_isDigit _

theorem natOfDigits_snoc (l : List Char) (c : Char) :
    natOfDigits (l ++ [c]) = natOfDigits l * 10 + (c.toNat - 48) := by
  simp [natOfDigits, List.foldl_append]

theorem natOfDigits_natDigits : ∀ n, natOfDigits (natDigits n) = n := by
  intro n
  induction n using Nat.strong_induction_on with
  | _ n ih =>
    unfold natDigits
    by_cases h : n < 10
    · rw [if_pos h]
      show 0 * 10 + ((digitChar n).toNat - 48) = n
      rw [digitChar_val n h]
      omega
    · rw [if_neg h, natOfDigits_snoc, ih (n / 10) (Nat.div_lt_self (by omega) (by omega)),
        digitChar_val _ (Nat.mod_lt _ (by omega))]
      omega

theorem natOfDigits_cons_zero (l : List Char) :
    natOfDigits ('0' :: l) = natOfDigits l := by
  simp [natOfDigits]

theorem natOfDigits_replicate_zero (k : Nat) (l : List Char) :
    natOfDigits (List.replicate k '0' ++ l) = natOfDigits l := by
  induction k with
  | zero => rfl
  | succ k ih =>
    rw [List.replicate_succ, List.cons_append]
    calc natOfDigits ('0' :: (List.replicate k '0' ++ l))
        = natOfDigits (List.replicate k '0' ++ l) := natOfDigits_cons_zero _
      _ = natOfDigits l := ih

theorem natDigits_len_le : ∀ n k, 1 ≤ k → n < 10 ^ k → (natDigits n).length ≤ k := by
  intro n
  induction n using Nat.strong_induction_on with
  | _ n ih =>
    intro k hk hlt
    unfold natDigits
    by_cases h : n < 10
    · rw [if_pos h]; simpa using hk
    · rw [if_neg h]
      have hk2 : 2 ≤ k := by
        by_contra hcon
        have : k = 1 := by omega
        rw [this] at hlt
        simp at hlt
        omega
      have hdiv : n / 10 < 10 ^ (k - 1) := by
        have h10 : (10 : Nat) ^ k = 10 ^ (k - 1) * 10 := by
          rw [← pow_succ]
          congr 1
          omega
        rw [h10] at hlt
        exact Nat.div_lt_of_lt_mul (by omega)
      have := ih (n / 10) (Nat.div_lt_self (by omega) (by omega)) (k - 1) (by omega) hdiv
      rw [List.length_append, List.length_singleton]
      omega

theorem pad6_length {l : List Char} (h : l.length ≤ 6) : (pad6 l).length = 6 := by
  unfold pad6
  rw [List.length_append, List.length_replicate]
  omega

theorem pad6_all_digit {l : List Char} (hl : ∀ c ∈ l, c.isDigit = true) :
    ∀ c ∈ pad6 l, c.isDigit = true := by
  intro c hc
  rcases List.mem_append.1 hc with hc | hc
  · rw [List.eq_of_mem_replicate hc]; decide
  · exact hl c hc

theorem natOfDigits_pad6 (m : Nat) :
    natOfDigits (pad6 (natDigits m)) = m := by
  unfold pad6
  rw [natOfDigits_replicate_zero, natOfDigits_natDigits]

/-! ## Parser lemmas: the numeric scan -/

theorem scanNum_stop {r : List Char} (d x : Bool) (h : numCharB (peek r) = false) :
    scanNum r d x = .ok ([], d, x, r) := by
  cases r with
  | nil => rfl
  | cons c rest =>
    have h2 : (c.isDigit || c == '.' || c == 'e' || c == 'E') = false := h
    unfold scanNum
    rw [if_neg (by rw [h2]; exact Bool.false_ne_true)]

theorem scanNum_digits {l : List Char} (hl : ∀ c ∈ l, c.isDigit = true) :
    ∀ (r : List Char) (d x : Bool),
      scanNum (l ++ r) d x =
        match scanNum r d x with
        | .ok q => .ok (l ++ q.1, q.2)
        | .error e => .error e := by
  induction l with
  | nil =>
    intro r d x
    cases h : scanNum r d x with
    | ok q => simp [h]
    | error e => simp [h]
  | cons c l ih =>
    intro r d x
    have hc : c.isDigit = true := hl c (by simp)
    have hne : (c == '.') = false := beq_false_of_digit hc (by decide)
    have hnee : (c == 'e') = false := beq_false_of_digit hc (by decide)
    have hneE : (c == 'E') = false := beq_false_of_digit hc (by decide)
    rw [List.cons_append]
    conv_lhs => rw [scanNum]
    rw [if_pos (by rw [hc]; rfl),
      if_neg (by rw [hnee, hneE]; simp),
      if_neg (by rw [hne]; simp)]
    rw [show (x || c == 'e' || c == 'E') = x by rw [hnee, hneE]; simp,
      show (d || c == '.') = d by rw [hne]; simp]
    show (match scanNum (l ++ r) d x with
      | Except.ok (tok, d2, x2, rr) => Except.ok (c :: tok, d2, x2, rr)
      | Except.error e => Except.error e) = _
    rw [ih (fun y hy => hl y (by simp [hy])) r d x]
    cases h : scanNum r d x with
    | ok q => simp [h]
    | error e => simp [h]

theorem scanNum_dot (r : List Char) :
    scanNum ('.' :: r) false false =
      match scanNum r true false with
      | .ok q => .ok ('.' :: q.1, q.2)
      | .error e => .error e := by
  conv_lhs => rw [scanNum]
  rw [if_pos (by decide), if_neg (by decide), if_neg (by decide)]
  rw [show (false || '.' == 'e' || '.' == 'E') = false by decide,
    show (false || '.' == '.') = true by decide]
  show (match scanNum r true false with
    | Except.ok (tok, d2, x2, rr) => Except.ok ('.' :: tok, d2, x2, rr)
    | Except.error e => Except.error e) = _
  cases h : scanNum r true false with
  | ok q => simp [h]
  | error e => simp [h]

/-! ## The list-level view of `unparse` -/

/-- `Expr.pre` at the character-list level. -/
def preL (k : String) : List Char := if k.isEmpty then [] else k.toList ++ ['=']

/-- `i32ToString` at the character-list level. -/
def i32L (v : Int) : List Char :=
  (if v < 0 then ['-'] else []) ++ natDigits v.natAbs

/-- `f64ToString` at the character-list level. -/
def f64L (q : Rat) : List Char :=
  (if q < 0 then ['-'] else []) ++
    natDigits ((round (|q| * 1000000) : Int).toNat / 1000000) ++
    '.' :: pad6 (natDigits ((round (|q| * 1000000) : Int).toNat % 1000000))

mutual
/-- `Expr.unparse` at the character-list level. -/
def unparseL : Expr → List Char
  | .none k => preL k ++ ['(', ')']
  | .i32 v k => preL k ++ i32L v
  | .f64 v k => preL k ++ f64L v
  | .str v k => preL k ++ '\'' :: v.toList ++ ['\'']
  | .sym v k => preL k ++ v.toList
  | .table ps k => preL k ++ '(' :: unparsePartsL ps ++ [')']
  | .func _ k => preL k ++ ['<', 'f', 'u', 'n', 'c', '>']
  | .data Option.none k => preL k
  | .data (some (_, _, t)) k => preL k ++ unparseL t

def unparsePartsL : List Expr → List Char
  | [] => []
  | [e] => unparseL e
  | e :: es => unparseL e ++ ' ' :: unparsePartsL es
end

theorem toList_mk (l : List Char) : (String.mk l).toList = l := rfl

theorem toList_append (a b : String) : (a ++ b).toList = a.toList ++ b.toList :=
  String.data_append a b

theorem pre_toList (k : String) : (Expr.pre k).toList = preL k := by
  unfold Expr.pre preL
  by_cases h : k.isEmpty
  · rw [if_pos h, if_pos h]
    rfl
  · rw [if_neg h, if_neg h]
    exact String.data_append k "="

theorem i32ToString_toList (v : Int) : (i32ToString v).toList = i32L v := by
  unfold i32ToString i32L
  by_cases h : v < 0
  · rw [if_pos h, if_pos h, toList_append]
    rfl
  · rw [if_neg h, if_neg h, toList_append]
    rfl

theorem f64ToString_toList (q : Rat) : (f64ToString q).toList = f64L q := by
  unfold f64ToString f64L
  by_cases h : q < 0
  · rw [if_pos h, if_pos h, toList_append, toList_append, toList_append,
      List.append_assoc]
    rfl
  · rw [if_neg h, if_neg h, toList_append, toList_append, toList_append,
      List.append_assoc]
    rfl

mutual
theorem unparse_toList : ∀ e : Expr, (Expr.unparse e).toList = unparseL e
  | .none k => by
    rw [Expr.unparse, unparseL, toList_append, pre_toList]; rfl
  | .i32 v k => by
    rw [Expr.unparse, unparseL, toList_append, pre_toList, i32ToString_toList]
  | .f64 v k => by
    rw [Expr.unparse, unparseL, toList_append, pre_toList, f64ToString_toList]
  | .str v k => by
    rw [Expr.unparse, unparseL, toList_append, toList_append, toList_append,
      pre_toList]
    simp
  | .sym v k => by
    rw [Expr.unparse, unparseL, toList_append, pre_toList]
  | .table ps k => by
    rw [Expr.unparse, unparseL, toList_append, toList_append, toList_append,
      pre_toList, unparseParts_toList ps]
    simp
  | .func f k => by
    rw [Expr.unparse, unparseL, toList_append, pre_toList]; rfl
  | .data Option.none k => by
    rw [Expr.unparse, unparseL, pre_toList]
  | .data (some (i, n, t)) k => by
    rw [Expr.unparse, unparseL, toList_append, pre_toList, unparse_toList t]

theorem unparseParts_toList : ∀ ps : List Expr,
    (Expr.unparseParts ps).toList = unparsePartsL ps
  | [] => rfl
  | [e] => by
    show (Expr.unparse e).toList = unparseL e
    exact unparse_toList e
  | e :: e2 :: es => by
    show (Expr.unparse e ++ " " ++ Expr.unparseParts (e2 :: es)).toList
      = unparseL e ++ ' ' :: unparsePartsL (e2 :: es)
    rw [toList_append, toList_append, unparse_toList e,
      unparseParts_toList (e2 :: es)]
    simp
end

/-! ## Parser lemmas: tokens produced by `unparse` -/

theorem parse_symbol_token (tok r : List Char)
    (htok : ∀ c ∈ tok, is_symbol_character c = true)
    (hr : is_symbol_character (peek r) = false) :
    parse_symbol (tok ++ r) = (Expr.sym (String.mk tok) "", r) := by
  unfold parse_symbol
  obtain ⟨h1, h2⟩ := takeWhile_append_of_all tok r htok hr
  rw [h1, h2]

theorem parse_quoted_token (content r : List Char)
    (hc : ∀ c ∈ content, (c == '\'') = false)
    (hok : okAfterB r = true) :
    parse_quoted ('\'' :: (content ++ '\'' :: r)) =
      .ok (Expr.str (String.mk content) "", r) := by
  obtain ⟨h1, h2⟩ := @takeWhile_append_of_all (fun c => !(c == '\''))
    content ('\'' :: r)
    (fun c hcm => by show (!(c == '\'')) = true; rw [hc c hcm]; rfl)
    (by rfl)
  simp only [parse_quoted, h1, h2]
  rw [okAfter_term hok]
  rfl

theorem numBody_nosign {s : List Char} (h1 : (peek s == '+') = false)
    (h2 : (peek s == '-') = false) : numBody s = s := by
  unfold numBody
  rw [h1, h2, if_neg (by simp)]

theorem numSign_nosign {s : List Char} (h1 : (peek s == '+') = false)
    (h2 : (peek s == '-') = false) : numSign s = [] := by
  unfold numSign
  rw [h1, h2, if_neg (by simp)]

theorem parse_number_i32 (v : Int) (r : List Char) (hok : okAfterB r = true) :
    parse_number (i32L v ++ r) = .ok (Expr.i32 v "", r) := by
  have hdig := natDigits_all_digit v.natAbs
  have hscan : scanNum (natDigits v.natAbs ++ r) false false
      = .ok (natDigits v.natAbs, false, false, r) := by
    rw [scanNum_digits hdig r false false,
      scanNum_stop false false (okAfter_not_numchar hok)]
    simp
  obtain ⟨d, rest, hdr⟩ : ∃ d rest, natDigits v.natAbs = d :: rest := by
    cases hh : natDigits v.natAbs with
    | nil => exact absurd hh (natDigits_ne_nil _)
    | cons d rest => exact ⟨d, rest, rfl⟩
  have hd : d.isDigit = true := hdig d (by rw [hdr]; simp)
  have hdm : (d == '-') = false := beq_false_of_digit hd (by decide)
  have hdp : (d == '+') = false := beq_false_of_digit hd (by decide)
  unfold parse_number
  by_cases hneg : v < 0
  · have hchars : i32L v ++ r = '-' :: (natDigits v.natAbs ++ r) := by
      unfold i32L
      rw [if_pos hneg]
      rfl
    rw [hchars]
    rw [show numBody ('-' :: (natDigits v.natAbs ++ r))
        = natDigits v.natAbs ++ r from by unfold numBody peek; simp]
    rw [show numSign ('-' :: (natDigits v.natAbs ++ r)) = ['-'] from by
      unfold numSign peek; simp]
    rw [hscan]
    simp only [pnumFinish]
    rw [okAfter_term hok]
    rw [if_neg (by decide : ¬((false : Bool) = true))]
    rw [if_neg (by decide : ¬(((false || false : Bool)) = true))]
    rw [show ['-'] ++ natDigits v.natAbs = '-' :: natDigits v.natAbs from rfl]
    simp only [atoi]
    rw [if_pos (by decide : (('-' : Char) == '-') = true)]
    rw [natOfDigits_natDigits]
    rw [show -(v.natAbs : Int) = v from by omega]
  · have hchars : i32L v ++ r = natDigits v.natAbs ++ r := by
      unfold i32L
      rw [if_neg hneg]
      rfl
    rw [hchars]
    have hpk : peek (natDigits v.natAbs ++ r) = d := by rw [hdr]; rfl
    have hp1 : (peek (natDigits v.natAbs ++ r) == '+') = false := by
      rw [hpk]; exact hdp
    have hp2 : (peek (natDigits v.natAbs ++ r) == '-') = false := by
      rw [hpk]; exact hdm
    rw [numBody_nosign hp1 hp2, numSign_nosign hp1 hp2, hscan]
    simp only [pnumFinish]
    rw [okAfter_term hok]
    rw [if_neg (by decide : ¬((false : Bool) = true))]
    rw [if_neg (by decide : ¬(((false || false : Bool)) = true))]
    rw [show ([] : List Char) ++ natDigits v.natAbs = natDigits v.natAbs from
      rfl]
    rw [hdr]
    simp only [atoi]
    rw [hdm, if_neg (by exact Bool.false_ne_true), hdp,
      if_neg (by exact Bool.false_ne_true)]
    rw [← hdr, natOfDigits_natDigits]
    rw [show ((v.natAbs : Int)) = v from by omega]

/-! ## Parser lemmas: `atof` on decimal tokens -/

theorem digitsOf_stop (d1 r : List Char) (h1 : ∀ c ∈ d1, c.isDigit = true)
    (hr : (peek r).isDigit = false) :
    digitsOf (d1 ++ r) = d1 ∧ afterDigits (d1 ++ r) = r := by
  obtain ⟨ha, hb⟩ := @takeWhile_append_of_all (fun c => c.isDigit) d1 r h1 hr
  refine ⟨ha, ?_⟩
  show (d1 ++ r).drop (digitsOf (d1 ++ r)).length = r
  unfold digitsOf
  rw [ha]
  exact hb

theorem atofMag_dec (d1 d2 : List Char) (h1 : ∀ c ∈ d1, c.isDigit = true)
    (h2 : ∀ c ∈ d2, c.isDigit = true) :
    atofMag (d1 ++ '.' :: d2) =
      (natOfDigits d1 : Rat) + (natOfDigits d2 : Rat) / (10 : Rat) ^ d2.length := by
  obtain ⟨ha, hb⟩ := digitsOf_stop d1 ('.' :: d2) h1 (by rfl)
  have hd2 : digitsOf d2 = d2 := by
    have h := digitsOf_stop d2 [] h2 (by decide)
    simpa using h.1
  have hfrac : fracOf (d1 ++ '.' :: d2) = d2 := by
    unfold fracOf
    rw [hb]
    rw [if_pos (show (peek ('.' :: d2) == '.') = true from rfl)]
    rw [List.tail_cons]
    exact hd2
  have hafter : afterFrac (d1 ++ '.' :: d2) = [] := by
    unfold afterFrac
    rw [hb]
    rw [if_pos (show (peek ('.' :: d2) == '.') = true from rfl)]
    rw [List.tail_cons, hfrac, List.drop_length]
  have hexp : expOf (d1 ++ '.' :: d2) = 0 := by
    unfold expOf
    rw [hafter]
    rw [if_neg (by decide : ¬((peek ([] : List Char) == 'e' || peek ([] : List Char) == 'E') = true))]
  unfold atofMag
  rw [ha, hfrac, hexp, pow_zero, mul_one]

theorem parse_number_f64 (q : Rat) (r : List Char) (hq : (q * 1000000).den = 1)
    (hok : okAfterB r = true) :
    parse_number (f64L q ++ r) = .ok (Expr.f64 q "", r) := by
  have hn : (((q * 1000000).num : Int) : Rat) = q * 1000000 :=
    (Rat.den_eq_one_iff (q * 1000000)).mp hq
  have habs : |q| * 1000000 = (((q * 1000000).num.natAbs : Nat) : Rat) := by
    obtain ⟨n, hn2⟩ : ∃ z, (q * 1000000).num = z := ⟨_, rfl⟩
    rw [hn2]
    rw [show |q| * (1000000 : Rat) = |q * 1000000| from by
      rw [abs_mul]
      norm_num]
    rw [show q * 1000000 = ((n : Int) : Rat) from by rw [← hn2]; exact hn.symm]
    rw [Int.cast_natAbs, Int.cast_abs]
  have hm : (round (|q| * 1000000) : Int).toNat = (q * 1000000).num.natAbs := by
    rw [habs, round_natCast]
    omega
  obtain ⟨W, hW⟩ : ∃ w, (q * 1000000).num.natAbs / 1000000 = w := ⟨_, rfl⟩
  obtain ⟨F, hF⟩ : ∃ f, (q * 1000000).num.natAbs % 1000000 = f := ⟨_, rfl⟩
  have hF6 : F < 10 ^ 6 := by
    have h10 : (10 : Nat) ^ 6 = 1000000 := by norm_num
    rw [h10, ← hF]
    exact Nat.mod_lt _ (by norm_num)
  have hlen : (pad6 (natDigits F)).length = 6 :=
    pad6_length (natDigits_len_le F 6 (by norm_num) hF6)
  have hval : ((W : Nat) : Rat) + ((F : Nat) : Rat) / (10 : Rat) ^ (6 : Nat) = |q| := by
    have hdm : W * 1000000 + F = (q * 1000000).num.natAbs := by
      rw [← hW, ← hF]
      omega
    have h1m : (((q * 1000000).num.natAbs : Nat) : Rat) = (W : Rat) * 1000000 + F := by
      rw [← hdm]
      push_cast
      ring
    have habs2 : |q| * 1000000 = (W : Rat) * 1000000 + F := by rw [habs, h1m]
    have h10 : ((10 : Rat) ^ (6 : Nat)) = 1000000 := by norm_num
    rw [h10]
    field_simp
    linarith [habs2]
  have hscan : scanNum (natDigits W ++ ('.' :: (pad6 (natDigits F) ++ r))) false false
      = .ok (natDigits W ++ '.' :: pad6 (natDigits F), true, false, r) := by
    rw [scanNum_digits (natDigits_all_digit W) ('.' :: (pad6 (natDigits F) ++ r)) false false]
    rw [scanNum_dot]
    rw [scanNum_digits (pad6_all_digit (natDigits_all_digit F)) r true false]
    rw [scanNum_stop true false (okAfter_not_numchar hok)]
    simp
  unfold parse_number
  by_cases hneg : q < 0
  · have hchars : f64L q ++ r
        = '-' :: (natDigits W ++ ('.' :: (pad6 (natDigits F) ++ r))) := by
      unfold f64L
      rw [hm, hW, hF, if_pos hneg]
      simp [List.append_assoc]
    rw [hchars]
    rw [show numBody ('-' :: (natDigits W ++ ('.' :: (pad6 (natDigits F) ++ r))))
        = natDigits W ++ ('.' :: (pad6 (natDigits F) ++ r)) from by
      unfold numBody peek
      simp]
    rw [show numSign ('-' :: (natDigits W ++ ('.' :: (pad6 (natDigits F) ++ r))))
        = ['-'] from by
      unfold numSign peek
      simp]
    rw [hscan]
    simp only [pnumFinish]
    rw [okAfter_term hok]
    rw [if_neg (by decide : ¬((false : Bool) = true))]
    rw [if_pos (by decide : ((true || false : Bool)) = true)]
    rw [show ['-'] ++ (natDigits W ++ '.' :: pad6 (natDigits F))
        = '-' :: (natDigits W ++ '.' :: pad6 (natDigits F)) from rfl]
    unfold atof
    rw [if_pos (show (peek ('-' :: (natDigits W ++ '.' :: pad6 (natDigits F))) == '-') = true
      from rfl)]
    rw [List.tail_cons]
    rw [atofMag_dec (natDigits W) (pad6 (natDigits F)) (natDigits_all_digit W)
      (pad6_all_digit (natDigits_all_digit F))]
    rw [natOfDigits_natDigits W, natOfDigits_pad6 F, hlen]
    rw [hval]
    rw [show -|q| = q from by rw [abs_of_neg hneg]; ring]
  · have hchars : f64L q ++ r
        = natDigits W ++ ('.' :: (pad6 (natDigits F) ++ r)) := by
      unfold f64L
      rw [hm, hW, hF, if_neg hneg]
      simp [List.append_assoc]
    rw [hchars]
    obtain ⟨d, rest2, hdr⟩ : ∃ d rest2, natDigits W = d :: rest2 := by
      cases hh : natDigits W with
      | nil => exact absurd hh (natDigits_ne_nil _)
      | cons d rest2 => exact ⟨d, rest2, rfl⟩
    have hd : d.isDigit = true := natDigits_all_digit W d (by rw [hdr]; simp)
    have hdm2 : (d == '-') = false := beq_false_of_digit hd (by decide)
    have hdp2 : (d == '+') = false := beq_false_of_digit hd (by decide)
    have hpk1 : peek (natDigits W ++ ('.' :: (pad6 (natDigits F) ++ r))) = d := by
      rw [hdr]
      rfl
    rw [numBody_nosign (by rw [hpk1]; exact hdp2) (by rw [hpk1]; exact hdm2),
      numSign_nosign (by rw [hpk1]; exact hdp2) (by rw [hpk1]; exact hdm2), hscan]
    simp only [pnumFinish]
    rw [okAfter_term hok]
    rw [if_neg (by decide : ¬((false : Bool) = true))]
    rw [if_pos (by decide : ((true || false : Bool)) = true)]
    rw [show ([] : List Char) ++ (natDigits W ++ '.' :: pad6 (natDigits F))
        = natDigits W ++ '.' :: pad6 (natDigits F) from rfl]
    unfold atof
    have hpk2 : peek (natDigits W ++ '.' :: pad6 (natDigits F)) = d := by
      rw [hdr]
      rfl
    rw [hpk2]
    rw [hdm2, if_neg (by exact Bool.false_ne_true), hdp2,
      if_neg (by exact Bool.false_ne_true)]
    rw [atofMag_dec (natDigits W) (pad6 (natDigits F)) (natDigits_all_digit W)
      (pad6_all_digit (natDigits_all_digit F))]
    rw [natOfDigits_natDigits W, natOfDigits_pad6 F, hlen]
    rw [hval]
    rw [abs_of_nonneg (le_of_not_lt hneg)]

/-! ## Parser lemmas: dispatch of `parse_part` -/

theorem beqc_false_of_ne {c d : Char} (h : c ≠ d) : (c == d) = false := by
  cases hb : (c == d) with
  | false => rfl
  | true => exact absurd (eq_of_beq hb) h

theorem sym_not_space {c : Char} (h : is_symbol_character c = true) :
    isSpaceC c = false := by
  cases hb : isSpaceC c with
  | false => rfl
  | true =>
    rw [space_not_sym hb] at h
    exact absurd h Bool.false_ne_true

theorem sym_not_close {c : Char} (h : is_symbol_character c = true) :
    (c == ')') = false := by
  cases hb : (c == ')') with
  | false => rfl
  | true =>
    rw [eq_of_beq hb] at h
    exact absurd h (by decide)

theorem lead_sym {c : Char} (h : is_leading_symbol_character c = true) :
    is_symbol_character c = true := by
  unfold is_leading_symbol_character at h
  unfold is_symbol_character
  simp only [Bool.or_eq_true] at h ⊢
  tauto

theorem okAfter_not_digit {r : List Char} (h : okAfterB r = true) :
    (peek r).isDigit = false := by
  have h2 := okAfter_not_numchar h
  cases hb : (peek r).isDigit with
  | false => rfl
  | true =>
    unfold numCharB at h2
    rw [hb] at h2
    simp at h2

theorem okAfter_ne_dot {r : List Char} (h : okAfterB r = true) :
    (peek r == '.') = false := by
  have h2 := okAfter_not_numchar h
  cases hb : (peek r == '.') with
  | false => rfl
  | true =>
    unfold numCharB at h2
    rw [hb] at h2
    simp at h2

theorem okAfter_cons_space {c : Char} (x : List Char) (h : isSpaceC c = true) :
    okAfterB (c :: x) = true := by
  unfold okAfterB
  rw [show peek (c :: x) = c from rfl, h]
  simp

theorem okAfter_close (x : List Char) : okAfterB (')' :: x) = true := rfl

theorem gnp_none_head {c : Char} (rest : List Char)
    (h : is_symbol_character c = false) :
    get_named_part (c :: rest) = Option.none := by
  unfold get_named_part gnpAux
  rw [if_neg (by rw [h]; exact Bool.false_ne_true)]

theorem gnp_none_symrun {tok rest : List Char}
    (htok : ∀ c ∈ tok, is_symbol_character c = true)
    (hok : okAfterB rest = true) :
    get_named_part (tok ++ rest) = Option.none := by
  unfold get_named_part
  exact gnpAux_safe_none _
    (gnpSafe_append (fun c hc => sym_ne_eq (htok c hc)) (okAfter_ne_eq hok)
      (okAfter_gnpSafe hok)) []

theorem gnpSafe_dot (xs : List Char) : gnpSafe ('.' :: xs) := by
  intro hsym
  exact absurd hsym (by decide)

theorem gnp_none_dotted {tok xs : List Char}
    (htok : ∀ c ∈ tok, is_symbol_character c = true) :
    get_named_part (tok ++ '.' :: xs) = Option.none := by
  unfold get_named_part
  exact gnpAux_safe_none _
    (gnpSafe_append (fun c hc => sym_ne_eq (htok c hc))
      (by rw [show peek ('.' :: xs) = '.' from rfl]; decide)
      (gnpSafe_dot xs)) []

theorem is_number_head_false {c0 : Char} (h0 : c0.isDigit = false)
    (hdot : (c0 == '.') = false) (hpm : (c0 == '+' || c0 == '-') = false) :
    ∀ c1 c2, is_number c0 c1 c2 = false := by
  intro c1 c2
  unfold is_number
  rw [if_neg (by rw [h0]; exact Bool.false_ne_true),
    if_neg (by rw [hdot]; exact Bool.false_ne_true),
    if_neg (by rw [hpm]; exact Bool.false_ne_true)]

theorem is_number_sym_false {c0 c1 c2 : Char}
    (h0 : c0.isDigit = false) (hdot : (c0 == '.') = false)
    (hplus : (c0 == '+') = false)
    (hminus : c0 = '-' → c1.isDigit = false ∧ (c1 == '.') = false) :
    is_number c0 c1 c2 = false := by
  by_cases hm : c0 = '-'
  · obtain ⟨h1, h2⟩ := hminus hm
    subst hm
    unfold is_number
    rw [if_neg (by rw [h0]; exact Bool.false_ne_true),
      if_neg (by rw [hdot]; exact Bool.false_ne_true),
      if_pos (by decide)]
    rw [h1, h2]
    simp
  · exact is_number_head_false h0 hdot
      (by rw [hplus, beqc_false_of_ne hm]; rfl) c1 c2

theorem parse_part_num (kw : String) (c : Char) (rest rme : List Char) (e : Expr)
    (hsp : isSpaceC c = false)
    (hgnp : get_named_part (c :: rest) = Option.none)
    (hnum : is_number c (peek rest) (peek rest.tail) = true)
    (hres : parse_number (c :: rest) = .ok (e, rme)) :
    parse_part kw (c :: rest) = .ok (e.keyed kw, rme) := by
  rw [parse_part]
  rw [if_neg (by rw [hsp]; exact Bool.false_ne_true)]
  split
  next kws heq =>
    rw [hgnp] at heq
    exact Option.noConfusion heq
  next heq =>
    rw [if_pos hnum, hres]

theorem parse_part_sym (kw : String) (c : Char) (rest rme : List Char) (e : Expr)
    (hsp : isSpaceC c = false)
    (hgnp : get_named_part (c :: rest) = Option.none)
    (hnum : is_number c (peek rest) (peek rest.tail) = false)
    (hlead : is_leading_symbol_character c = true)
    (hres : parse_symbol (c :: rest) = (e, rme)) :
    parse_part kw (c :: rest) = .ok (e.keyed kw, rme) := by
  rw [parse_part]
  rw [if_neg (by rw [hsp]; exact Bool.false_ne_true)]
  split
  next kws heq =>
    rw [hgnp] at heq
    exact Option.noConfusion heq
  next heq =>
    rw [if_neg (by rw [hnum]; exact Bool.false_ne_true), if_pos hlead, hres]

theorem parse_part_quote (kw : String) (c : Char) (rest rme : List Char) (e : Expr)
    (hsp : isSpaceC c = false)
    (hgnp : get_named_part (c :: rest) = Option.none)
    (hnum : is_number c (peek rest) (peek rest.tail) = false)
    (hlead : is_leading_symbol_character c = false)
    (hq : (c == '\'') = true)
    (hres : parse_quoted (c :: rest) = .ok (e, rme)) :
    parse_part kw (c :: rest) = .ok (e.keyed kw, rme) := by
  rw [parse_part]
  rw [if_neg (by rw [hsp]; exact Bool.false_ne_true)]
  split
  next kws heq =>
    rw [hgnp] at heq
    exact Option.noConfusion heq
  next heq =>
    rw [if_neg (by rw [hnum]; exact Bool.false_ne_true),
      if_neg (by rw [hlead]; exact Bool.false_ne_true), if_pos hq, hres]

theorem parse_part_paren (kw : String) (c : Char) (rest rme : List Char) (e : Expr)
    (hsp : isSpaceC c = false)
    (hgnp : get_named_part (c :: rest) = Option.none)
    (hnum : is_number c (peek rest) (peek rest.tail) = false)
    (hlead : is_leading_symbol_character c = false)
    (hq : (c == '\'') = false)
    (hpar : (c == '(') = true)
    (hres : parse_expression (c :: rest) = .ok (e, rme)) :
    parse_part kw (c :: rest) = .ok (e.keyed kw, rme) := by
  rw [parse_part]
  rw [if_neg (by rw [hsp]; exact Bool.false_ne_true)]
  split
  next kws heq =>
    rw [hgnp] at heq
    exact Option.noConfusion heq
  next heq =>
    rw [if_neg (by rw [hnum]; exact Bool.false_ne_true),
      if_neg (by rw [hlead]; exact Bool.false_ne_true),
      if_neg (by rw [hq]; exact Bool.false_ne_true), if_pos hpar, hres]

theorem parse_part_named (kw : String) (k rest2 : List Char)
    (hk : k ≠ []) (hsym : ∀ c ∈ k, is_symbol_character c = true) :
    parse_part kw (k ++ '=' :: rest2) = parse_part (String.mk k) rest2 := by
  cases k with
  | nil => exact absurd rfl hk
  | cons kc ktl =>
    have hfound : get_named_part (kc :: (ktl ++ '=' :: rest2))
        = some (String.mk (kc :: ktl), rest2) := by
      unfold get_named_part
      rw [← List.cons_append]
      have h := gnpAux_found (kc :: ktl) rest2 [] (by simp) hsym
      simpa using h
    rw [List.cons_append, parse_part]
    rw [if_neg (by rw [sym_not_space (hsym kc (by simp))]; exact Bool.false_ne_true)]
    split
    next kws heq =>
      rw [hfound] at heq
      have h1 : (String.mk (kc :: ktl), rest2) = kws := by
        injection heq with h2
      rw [← h1]
    next heq =>
      rw [hfound] at heq
      exact Option.noConfusion heq

/-! ## The well-formed fragment for the round trip -/

/-- A key that `unparse` renders and the named-part scan recovers: empty,
or a nonempty run of symbol characters. -/
def keyOK (k : String) : Prop :=
  k = "" ∨ (k.toList ≠ [] ∧ ∀ c ∈ k.toList, is_symbol_character c = true)

/-- A symbol spelling the parser reads back as the same symbol: nonempty,
symbol characters only, a leading symbol character first, and not
number-like (`is_number` must reject it; only a leading `'-'` can make it
number-like). -/
def symTokOK (l : List Char) : Prop :=
  l ≠ [] ∧ (∀ c ∈ l, is_symbol_character c = true) ∧
    is_leading_symbol_character (peek l) = true ∧
    (peek l).isDigit = false ∧ (peek l == '.') = false ∧
    (peek l == '+') = false ∧
    (peek l = '-' → (peek l.tail).isDigit = false ∧ (peek l.tail == '.') = false)

mutual
/-- The expressions whose rendering parses back exactly: no `func` or
`data` (unparse is lossy there), strings without a quote character,
symbols per `symTokOK`, floats exact at six decimals, tables nonempty
with well-formed parts and keys. -/
def wfVal : Expr → Prop
  | .none _ => True
  | .i32 _ _ => True
  | .f64 v _ => (v * 1000000).den = 1
  | .str v _ => ∀ c ∈ v.toList, (c == '\'') = false
  | .sym v _ => symTokOK v.toList
  | .table ps _ => ps ≠ [] ∧ wfParts ps
  | .func _ _ => False
  | .data _ _ => False

def wfParts : List Expr → Prop
  | [] => True
  | e :: es => (wfVal e ∧ keyOK (Expr.key e)) ∧ wfParts es
end

/-- The rendering of an expression without its key prefix. -/
def bodyL : Expr → List Char
  | .none _ => ['(', ')']
  | .i32 v _ => i32L v
  | .f64 v _ => f64L v
  | .str v _ => '\'' :: v.toList ++ ['\'']
  | .sym v _ => v.toList
  | .table ps _ => '(' :: unparsePartsL ps ++ [')']
  | .func _ _ => ['<', 'f', 'u', 'n', 'c', '>']
  | .data Option.none _ => []
  | .data (some (_, _, t)) _ => unparseL t

theorem unparseL_pre_body : ∀ e : Expr, unparseL e = preL (Expr.key e) ++ bodyL e := by
  intro e
  cases e with
  | data h k =>
    cases h with
    | none => simp [unparseL, bodyL, Expr.key]
    | some t =>
      obtain ⟨i, n, u⟩ := t
      rfl
  | none k => rfl
  | i32 v k => rfl
  | f64 v k => rfl
  | str v k => simp [unparseL, bodyL, Expr.key]
  | sym v k => rfl
  | table ps k => simp [unparseL, bodyL, Expr.key]
  | func f k => rfl

theorem keyed_self (e : Expr) : e.keyed (Expr.key e) = e := by
  cases e <;> rfl

theorem str_isEmpty_false {s : String} (h : s.toList ≠ []) : s.isEmpty = false := by
  cases hb : s.isEmpty with
  | false => rfl
  | true =>
    rw [(String.isEmpty_iff s).mp hb] at h
    exact absurd rfl h

theorem bodyL_head (e : Expr) (h : wfVal e) :
    ∃ c0 s0, bodyL e = c0 :: s0 ∧ (c0 == ')') = false ∧ isSpaceC c0 = false := by
  cases e with
  | none k => exact ⟨'(', [')'], rfl, by decide, by decide⟩
  | i32 v k =>
    by_cases hneg : v < 0
    · refine ⟨'-', natDigits v.natAbs, ?_, by decide, by decide⟩
      show i32L v = _
      unfold i32L
      rw [if_pos hneg]
      rfl
    · obtain ⟨d, dr, hdr⟩ : ∃ d dr, natDigits v.natAbs = d :: dr := by
        cases hx : natDigits v.natAbs with
        | nil => exact absurd hx (natDigits_ne_nil _)
        | cons a b => exact ⟨a, b, rfl⟩
      have hd : d.isDigit = true := natDigits_all_digit _ d (by rw [hdr]; simp)
      refine ⟨d, dr ++ [], ?_, beq_false_of_digit hd (by decide), digit_not_space hd⟩
      show i32L v = _
      unfold i32L
      rw [if_neg hneg, hdr]
      simp
  | f64 v k =>
    by_cases hneg : v < 0
    · refine ⟨'-', natDigits ((round (|v| * 1000000) : Int).toNat / 1000000) ++
        '.' :: pad6 (natDigits ((round (|v| * 1000000) : Int).toNat % 1000000)),
        ?_, by decide, by decide⟩
      show f64L v = _
      unfold f64L
      rw [if_pos hneg]
      rfl
    · obtain ⟨d, dr, hdr⟩ : ∃ d dr,
          natDigits ((round (|v| * 1000000) : Int).toNat / 1000000) = d :: dr := by
        cases hx : natDigits ((round (|v| * 1000000) : Int).toNat / 1000000) with
        | nil => exact absurd hx (natDigits_ne_nil _)
        | cons a b => exact ⟨a, b, rfl⟩
      have hd : d.isDigit = true := natDigits_all_digit _ d (by rw [hdr]; simp)
      refine ⟨d, dr ++
        '.' :: pad6 (natDigits ((round (|v| * 1000000) : Int).toNat % 1000000)),
        ?_, beq_false_of_digit hd (by decide), digit_not_space hd⟩
      show f64L v = _
      unfold f64L
      rw [if_neg hneg, hdr]
      simp
  | str v k => exact ⟨'\'', v.toList ++ ['\''], rfl, by decide, by decide⟩
  | sym v k =>
    obtain ⟨hne, hsym, hrest⟩ := h
    obtain ⟨c0, tl, hc⟩ : ∃ a b, v.toList = a :: b := by
      cases hx : v.toList with
      | nil => exact absurd hx hne
      | cons a b => exact ⟨a, b, rfl⟩
    have hc0 : is_symbol_character c0 = true := hsym c0 (by rw [hc]; simp)
    exact ⟨c0, tl, by show v.toList = _; rw [hc], sym_not_close hc0, sym_not_space hc0⟩
  | table ps k => exact ⟨'(', unparsePartsL ps ++ [')'], rfl, by decide, by decide⟩
  | func f k => exact h.elim
  | data hd k => exact h.elim

theorem unparseL_head (e : Expr) (hv : wfVal e) (hk : keyOK (Expr.key e)) :
    ∃ c0 s0, unparseL e = c0 :: s0 ∧ (c0 == ')') = false ∧ isSpaceC c0 = false := by
  rcases hk with hk0 | ⟨hne, hsym⟩
  · obtain ⟨c0, s0, hb, h1, h2⟩ := bodyL_head e hv
    refine ⟨c0, s0, ?_, h1, h2⟩
    rw [unparseL_pre_body e, hk0, show preL "" = [] from rfl, List.nil_append]
    exact hb
  · obtain ⟨kc, ktl, hkt⟩ : ∃ a b, (Expr.key e).toList = a :: b := by
      cases hx : (Expr.key e).toList with
      | nil => exact absurd hx hne
      | cons a b => exact ⟨a, b, rfl⟩
    have hkc : is_symbol_character kc = true := hsym kc (by rw [hkt]; simp)
    refine ⟨kc, (ktl ++ ['=']) ++ bodyL e, ?_, sym_not_close hkc, sym_not_space hkc⟩
    rw [unparseL_pre_body e]
    unfold preL
    rw [if_neg (by rw [str_isEmpty_false hne]; exact Bool.false_ne_true), hkt]
    rfl

/-! ## The round trip: `parse_part` inverts the rendering -/

mutual
/-- `parse_part` on the keyless rendering of a well-formed expression
returns the expression keyed by the running keyword. -/
theorem pp_body : ∀ (e : Expr) (kw : String) (rest : List Char),
    wfVal e → okAfterB rest = true →
    parse_part kw (bodyL e ++ rest) = .ok (e.keyed kw, rest)
  | .none k, kw, rest, _, _ => by
    show parse_part kw ('(' :: (')' :: rest)) = .ok (Expr.none kw, rest)
    refine parse_part_paren kw '(' (')' :: rest) rest (Expr.none "") (by decide)
      (gnp_none_head _ (by decide))
      (is_number_head_false (by decide) (by decide) (by decide) _ _)
      (by decide) (by decide) (by decide) ?_
    rw [parse_expression]
    rw [parse_expr_body]
    rw [if_pos (by decide : ((')' : Char) == ')') = true)]
    rfl
  | .i32 v k, kw, rest, _, hok => by
    show parse_part kw (i32L v ++ rest) = .ok (Expr.i32 v kw, rest)
    have htok : ∀ c ∈ natDigits v.natAbs, is_symbol_character c = true :=
      fun c hc => digit_sym (natDigits_all_digit _ c hc)
    obtain ⟨d, dr, hdr⟩ : ∃ d dr, natDigits v.natAbs = d :: dr := by
      cases hx : natDigits v.natAbs with
      | nil => exact absurd hx (natDigits_ne_nil _)
      | cons a b => exact ⟨a, b, rfl⟩
    have hd : d.isDigit = true := natDigits_all_digit _ d (by rw [hdr]; simp)
    by_cases hneg : v < 0
    · have hchars : i32L v ++ rest = '-' :: (natDigits v.natAbs ++ rest) := by
        unfold i32L
        rw [if_pos hneg]
        rfl
      rw [hchars]
      have hgnp : get_named_part ('-' :: (natDigits v.natAbs ++ rest))
          = Option.none := by
        have hg := @gnp_none_symrun ('-' :: natDigits v.natAbs) rest
          (by
            intro c hc
            rcases List.mem_cons.mp hc with rfl | hc2
            · decide
            · exact htok c hc2) hok
        rw [List.cons_append] at hg
        exact hg
      have hnum : is_number '-' (peek (natDigits v.natAbs ++ rest))
          (peek (natDigits v.natAbs ++ rest).tail) = true := by
        unfold is_number
        rw [if_neg (by decide), if_neg (by decide), if_pos (by decide)]
        rw [show peek (natDigits v.natAbs ++ rest) = d from by rw [hdr]; rfl, hd]
        rfl
      have hres : parse_number ('-' :: (natDigits v.natAbs ++ rest))
          = .ok (Expr.i32 v "", rest) := by
        rw [← hchars]
        exact parse_number_i32 v rest hok
      exact parse_part_num kw '-' (natDigits v.natAbs ++ rest) rest (Expr.i32 v "")
        (by decide) hgnp hnum hres
    · have hchars : i32L v ++ rest = natDigits v.natAbs ++ rest := by
        unfold i32L
        rw [if_neg hneg]
        rfl
      rw [hchars, hdr, List.cons_append]
      have hgnp : get_named_part (d :: (dr ++ rest)) = Option.none := by
        have hg := @gnp_none_symrun (natDigits v.natAbs) rest htok hok
        rw [hdr, List.cons_append] at hg
        exact hg
      have hnum : is_number d (peek (dr ++ rest)) (peek (dr ++ rest).tail) = true := by
        unfold is_number
        rw [if_pos hd]
      have hres : parse_number (d :: (dr ++ rest)) = .ok (Expr.i32 v "", rest) := by
        rw [← List.cons_append, ← hdr, ← hchars]
        exact parse_number_i32 v rest hok
      exact parse_part_num kw d (dr ++ rest) rest (Expr.i32 v "")
        (digit_not_space hd) hgnp hnum hres
  | .f64 v k, kw, rest, hw, hok => by
    show parse_part kw (f64L v ++ rest) = .ok (Expr.f64 v kw, rest)
    have hq : (v * 1000000).den = 1 := hw
    have hres0 := parse_number_f64 v rest hq hok
    obtain ⟨WD, hWD⟩ : ∃ l,
        natDigits ((round (|v| * 1000000) : Int).toNat / 1000000) = l := ⟨_, rfl⟩
    obtain ⟨FD, hFD⟩ : ∃ l,
        pad6 (natDigits ((round (|v| * 1000000) : Int).toNat % 1000000)) = l := ⟨_, rfl⟩
    have htok : ∀ c ∈ WD, is_symbol_character c = true := by
      rw [← hWD]
      exact fun c hc => digit_sym (natDigits_all_digit _ c hc)
    have hdig : ∀ c ∈ WD, c.isDigit = true := by
      rw [← hWD]
      exact natDigits_all_digit _
    have hWDne : WD ≠ [] := hWD ▸ natDigits_ne_nil _
    obtain ⟨d, dr, hdr⟩ : ∃ d dr, WD = d :: dr := by
      cases hx : WD with
      | nil => exact absurd hx hWDne
      | cons a b => exact ⟨a, b, rfl⟩
    have hd : d.isDigit = true := hdig d (by rw [hdr]; simp)
    by_cases hneg : v < 0
    · have hchars : f64L v ++ rest = '-' :: (WD ++ ('.' :: (FD ++ rest))) := by
        unfold f64L
        rw [hWD, hFD, if_pos hneg]
        simp [List.append_assoc]
      rw [hchars]
      rw [hchars] at hres0
      have hgnp : get_named_part ('-' :: (WD ++ ('.' :: (FD ++ rest))))
          = Option.none := by
        have hg := @gnp_none_dotted ('-' :: WD) (FD ++ rest)
          (by
            intro c hc
            rcases List.mem_cons.mp hc with rfl | hc2
            · decide
            · exact htok c hc2)
        rw [List.cons_append] at hg
        exact hg
      have hnum : is_number '-' (peek (WD ++ ('.' :: (FD ++ rest))))
          (peek (WD ++ ('.' :: (FD ++ rest))).tail) = true := by
        unfold is_number
        rw [if_neg (by decide), if_neg (by decide), if_pos (by decide)]
        rw [show peek (WD ++ ('.' :: (FD ++ rest))) = d from by rw [hdr]; rfl, hd]
        rfl
      exact parse_part_num kw '-' (WD ++ ('.' :: (FD ++ rest))) rest (Expr.f64 v "")
        (by decide) hgnp hnum hres0
    · have hchars : f64L v ++ rest = WD ++ ('.' :: (FD ++ rest)) := by
        unfold f64L
        rw [hWD, hFD, if_neg hneg]
        simp [List.append_assoc]
      rw [hchars, hdr, List.cons_append]
      rw [hchars, hdr, List.cons_append] at hres0
      have hgnp : get_named_part (d :: (dr ++ ('.' :: (FD ++ rest))))
          = Option.none := by
        have hg := @gnp_none_dotted WD (FD ++ rest) htok
        rw [hdr, List.cons_append] at hg
        exact hg
      have hnum : is_number d (peek (dr ++ ('.' :: (FD ++ rest))))
          (peek (dr ++ ('.' :: (FD ++ rest))).tail) = true := by
        unfold is_number
        rw [if_pos hd]
      exact parse_part_num kw d (dr ++ ('.' :: (FD ++ rest))) rest (Expr.f64 v "")
        (digit_not_space hd) hgnp hnum hres0
  | .str v k, kw, rest, hw, hok => by
    have hshape : bodyL (Expr.str v k) ++ rest = '\'' :: (v.toList ++ '\'' :: rest) := by
      show ('\'' :: v.toList ++ ['\'']) ++ rest = _
      simp [List.append_assoc]
    rw [hshape]
    have hres : parse_quoted ('\'' :: (v.toList ++ '\'' :: rest))
        = .ok (Expr.str v "", rest) := by
      have hp := parse_quoted_token v.toList rest hw hok
      rw [show String.mk v.toList = v from rfl] at hp
      exact hp
    exact parse_part_quote kw '\'' (v.toList ++ '\'' :: rest) rest (Expr.str v "")
      (by decide) (gnp_none_head _ (by decide))
      (is_number_head_false (by decide) (by decide) (by decide) _ _)
      (by decide) (by decide) hres
  | .sym v k, kw, rest, hw, hok => by
    show parse_part kw (v.toList ++ rest) = .ok (Expr.sym v kw, rest)
    obtain ⟨hne, hsym, hlead, hd0, hdot0, hplus0, hminus⟩ := hw
    obtain ⟨c0, tl, hc⟩ : ∃ a b, v.toList = a :: b := by
      cases hx : v.toList with
      | nil => exact absurd hx hne
      | cons a b => exact ⟨a, b, rfl⟩
    rw [hc] at hlead hd0 hdot0 hplus0 hminus
    have hc0 : is_symbol_character c0 = true := hsym c0 (by rw [hc]; simp)
    rw [hc, List.cons_append]
    have hgnp : get_named_part (c0 :: (tl ++ rest)) = Option.none := by
      have hg := @gnp_none_symrun v.toList rest hsym hok
      rw [hc, List.cons_append] at hg
      exact hg
    have hnum : is_number c0 (peek (tl ++ rest)) (peek (tl ++ rest).tail) = false := by
      apply is_number_sym_false hd0 hdot0 hplus0
      intro hm
      cases tl with
      | nil =>
        exact ⟨okAfter_not_digit hok, okAfter_ne_dot hok⟩
      | cons t1 ts =>
        have h2 := hminus hm
        exact ⟨h2.1, h2.2⟩
    have hres : parse_symbol (c0 :: (tl ++ rest)) = (Expr.sym v "", rest) := by
      have hp := parse_symbol_token v.toList rest hsym (okAfter_not_sym hok)
      rw [show String.mk v.toList = v from rfl] at hp
      rw [hc, List.cons_append] at hp
      exact hp
    exact parse_part_sym kw c0 (tl ++ rest) rest (Expr.sym v "")
      (sym_not_space hc0) hgnp hnum hlead hres
  | .table ps k, kw, rest, hw, hok => by
    obtain ⟨hne, hp⟩ := hw
    have hshape : bodyL (Expr.table ps k) ++ rest
        = '(' :: (unparsePartsL ps ++ ')' :: rest) := by
      show ('(' :: unparsePartsL ps ++ [')']) ++ rest = _
      simp [List.append_assoc]
    rw [hshape]
    refine parse_part_paren kw '(' (unparsePartsL ps ++ ')' :: rest) rest
      (Expr.table ps "") (by decide) (gnp_none_head _ (by decide))
      (is_number_head_false (by decide) (by decide) (by decide) _ _)
      (by decide) (by decide) (by decide) ?_
    rw [parse_expression]
    rw [ppb_loop ps [] rest hp]
    cases ps with
    | nil => exact absurd rfl hne
    | cons p ps2 => simp
  | .func f k, kw, rest, hw, _ => hw.elim
  | .data h k, kw, rest, hw, _ => hw.elim
termination_by e kw rest hw hok => 2 * esz e
decreasing_by all_goals simp [esz, lsz] <;> omega

/-- `parse_part ""` on the full rendering (key included) of a well-formed
expression returns the expression itself. -/
theorem pp_full : ∀ (e : Expr) (rest : List Char),
    wfVal e → keyOK (Expr.key e) → okAfterB rest = true →
    parse_part "" (unparseL e ++ rest) = .ok (e, rest)
  | e, rest, hv, hk, hok => by
    rw [unparseL_pre_body]
    rcases hk with hk0 | ⟨hne, hsym⟩
    · rw [hk0, show preL "" = [] from rfl, List.nil_append]
      rw [pp_body e "" rest hv hok]
      rw [show e.keyed "" = e from by rw [← hk0]; exact keyed_self e]
    · rw [List.append_assoc]
      rw [show preL (Expr.key e) ++ (bodyL e ++ rest)
          = (Expr.key e).toList ++ '=' :: (bodyL e ++ rest) from by
        unfold preL
        rw [if_neg (by rw [str_isEmpty_false hne]; exact Bool.false_ne_true)]
        simp [List.append_assoc]]
      rw [parse_part_named "" (Expr.key e).toList (bodyL e ++ rest) hne hsym]
      rw [show String.mk (Expr.key e).toList = Expr.key e from rfl]
      rw [pp_body e (Expr.key e) rest hv hok]
      rw [keyed_self]
termination_by e rest hv hk hok => 2 * esz e + 1
decreasing_by all_goals simp [esz, lsz] <;> omega

/-- The interior loop of `parse_expression` over rendered parts collects
them in order up to the closing parenthesis. -/
theorem ppb_loop : ∀ (ps : List Expr) (acc : List Expr) (rest : List Char),
    wfParts ps →
    parse_expr_body (unparsePartsL ps ++ ')' :: rest) acc =
      .ok (if acc.isEmpty && ps.isEmpty then Expr.none ""
           else Expr.table (acc.reverse ++ ps) "", rest)
  | [], acc, rest, _ => by
    show parse_expr_body (')' :: rest) acc = _
    rw [parse_expr_body]
    rw [if_pos (by decide : ((')' : Char) == ')') = true)]
    cases acc with
    | nil => simp
    | cons a as => simp
  | [e], acc, rest, hp => by
    obtain ⟨⟨hv, hk⟩, -⟩ := hp
    show parse_expr_body (unparseL e ++ ')' :: rest) acc = _
    obtain ⟨c0, s0, hu, hcl, hspc⟩ := unparseL_head e hv hk
    rw [hu, List.cons_append]
    rw [parse_expr_body]
    rw [if_neg (by rw [hcl]; exact Bool.false_ne_true)]
    rw [if_neg (by rw [hspc]; exact Bool.false_ne_true)]
    have hpp0 : parse_part "" (c0 :: (s0 ++ ')' :: rest)) = .ok (e, ')' :: rest) := by
      rw [← List.cons_append, ← hu]
      exact pp_full e (')' :: rest) hv hk (okAfter_close rest)
    split
    next es2 heq =>
      rw [hpp0] at heq
      injection heq with h2
      subst h2
      rw [dif_pos (show ((e, (')' : Char) :: rest)).2.length
          < (s0 ++ ')' :: rest).length + 1 from by
        show (')' :: rest).length < (s0 ++ ')' :: rest).length + 1
        simp only [List.length_append, List.length_cons]
        omega)]
      show parse_expr_body (')' :: rest) (e :: acc) = _
      have hrec := ppb_loop [] (e :: acc) rest trivial
      rw [show unparsePartsL [] ++ ')' :: rest = ')' :: rest from rfl] at hrec
      rw [hrec]
      simp
    next heq =>
      rw [hpp0] at heq
      exact Except.noConfusion heq
  | e :: e2 :: es, acc, rest, hp => by
    obtain ⟨⟨hv, hk⟩, hp2⟩ := hp
    show parse_expr_body (unparsePartsL (e :: e2 :: es) ++ ')' :: rest) acc = _
    rw [show unparsePartsL (e :: e2 :: es) ++ ')' :: rest
        = unparseL e ++ (' ' :: (unparsePartsL (e2 :: es) ++ ')' :: rest)) from by
      show (unparseL e ++ ' ' :: unparsePartsL (e2 :: es)) ++ ')' :: rest = _
      simp [List.append_assoc]]
    obtain ⟨c0, s0, hu, hcl, hspc⟩ := unparseL_head e hv hk
    rw [hu, List.cons_append]
    rw [parse_expr_body]
    rw [if_neg (by rw [hcl]; exact Bool.false_ne_true)]
    rw [if_neg (by rw [hspc]; exact Bool.false_ne_true)]
    have hpp0 : parse_part ""
        (c0 :: (s0 ++ (' ' :: (unparsePartsL (e2 :: es) ++ ')' :: rest))))
        = .ok (e, ' ' :: (unparsePartsL (e2 :: es) ++ ')' :: rest)) := by
      rw [← List.cons_append, ← hu]
      exact pp_full e _ hv hk (okAfter_cons_space _ (by decide))
    split
    next es2 heq =>
      rw [hpp0] at heq
      injection heq with h2
      subst h2
      rw [dif_pos (show ((e, ' ' :: (unparsePartsL (e2 :: es) ++ ')' :: rest))).2.length
          < (s0 ++ (' ' :: (unparsePartsL (e2 :: es) ++ ')' :: rest))).length + 1 from by
        show (' ' :: (unparsePartsL (e2 :: es) ++ ')' :: rest)).length
          < (s0 ++ (' ' :: (unparsePartsL (e2 :: es) ++ ')' :: rest))).length + 1
        simp only [List.length_append, List.length_cons]
        omega)]
      show parse_expr_body (' ' :: (unparsePartsL (e2 :: es) ++ ')' :: rest))
        (e :: acc) = _
      rw [parse_expr_body]
      rw [if_neg (by decide : ¬(((' ' : Char) == ')') = true))]
      rw [if_pos (by decide : isSpaceC ' ' = true)]
      rw [ppb_loop (e2 :: es) (e :: acc) rest hp2]
      simp
    next heq =>
      rw [hpp0] at heq
      exact Except.noConfusion heq
termination_by ps acc rest hp => 2 * lsz ps + 1
decreasing_by all_goals simp [esz, lsz] <;> omega
end

/-- The well-formed fragment: value and key both well-formed. -/
def wfExpr (e : Expr) : Prop := wfVal e ∧ keyOK (Expr.key e)

theorem parse_unparse (e : Expr) (hwf : wfExpr e) :
    parse (Expr.unparse e) = .ok e := by
  obtain ⟨hv, hk⟩ := hwf
  unfold parse
  rw [unparse_toList e]
  have hfull := pp_full e [] hv hk rfl
  rw [List.append_nil] at hfull
  by_cases hpar : (peek (unparseL e) == '(') = true
  · rw [if_pos hpar]
    rw [hfull]
  · rw [if_neg hpar]
    obtain ⟨c0, s0, hu, -, -⟩ := unparseL_head e hv hk
    rw [hu]
    rw [parseTopF]
    rw [hu] at hfull
    rw [hfull]
    rfl
    exact fun h => List.noConfusion h

/-! ## Claim C2: the parse/unparse round trip -/

/-- C2: the spec claims `parse(e.unparse()) == e` for every expression
without a `Func` subterm, `Data` included.  As stated this is false (see
the counterexample); the round trip does hold on the well-formed fragment
`wfExpr`: no `func` or `data` subterm, nonempty tables, strings without a
quote character, symbols that are not number-like, floats exact at six
decimals, and keys made of symbol characters. -/
theorem unparse_parse_roundtrip (e : Expr) (h : wfExpr e) :
    parse (Expr.unparse e) = .ok e :=
  parse_unparse e h

theorem unparse_parse_roundtrip_witness :
    wfExpr (Expr.table [Expr.i32 (-3) "a", Expr.sym "x" ""] "") ∧
    parse (Expr.unparse (Expr.table [Expr.i32 (-3) "a", Expr.sym "x" ""] ""))
      = .ok (Expr.table [Expr.i32 (-3) "a", Expr.sym "x" ""] "") :=
  have hwf : wfExpr (Expr.table [Expr.i32 (-3) "a", Expr.sym "x" ""] "") :=
    ⟨⟨by decide,
      ⟨⟨trivial, Or.inr ⟨by decide, by decide⟩⟩,
        ⟨⟨⟨by decide, by decide, by decide, by decide, by decide, by decide,
          by decide⟩, Or.inl rfl⟩, trivial⟩⟩⟩, Or.inl rfl⟩
  ⟨hwf, unparse_parse_roundtrip _ hwf⟩

/-- C2 counterexample: a `data` expression (no `func` subterm anywhere)
renders as its table rendering — here `"()"` — which parses back to a
different expression, refuting the claim for the `Data` variant. -/
theorem unparse_parse_data_fails :
    parse (Expr.unparse (Expr.data (some (0, "axis", Expr.none "")) ""))
      = .ok (Expr.none "") ∧
    Expr.data (some (0, "axis", Expr.none "")) "" ≠ Expr.none "" := by
  constructor
  · rw [show Expr.unparse (Expr.data (some (0, "axis", Expr.none "")) "")
        = Expr.pre "" ++ Expr.unparse (Expr.none "") from by
      conv_lhs => rw [Expr.unparse]]
    rw [show (Expr.pre "" ++ Expr.unparse (Expr.none "") : String)
        = Expr.unparse (Expr.none "") from rfl]
    exact parse_unparse (Expr.none "") ⟨trivial, Or.inl rfl⟩
  · decide

/-! ## Claim C7: symbol tokens -/

/-- C7: the spec claims a leading letter or one of `_ - + : @` followed by
alphanumerics and those marks parses as a `Sym` — including `'+'`.  The
parser's `is_symbol_character`/`is_leading_symbol_character` do NOT accept
`'+'` (see the counterexample); for the actual character set, and spellings
that are not number-like, the token does parse back to exactly that
symbol. -/
theorem symbol_token_roundtrip (v : String) (h : symTokOK v.toList) :
    parse v = .ok (Expr.sym v "") := by
  have h2 := parse_unparse (Expr.sym v "") ⟨h, Or.inl rfl⟩
  rw [show Expr.unparse (Expr.sym v "") = v from by
    rw [Expr.unparse]
    rfl] at h2
  exact h2

theorem symbol_token_roundtrip_witness :
    symTokOK ("x-y" : String).toList ∧ parse "x-y" = .ok (Expr.sym "x-y" "") :=
  have h : symTokOK ("x-y" : String).toList :=
    ⟨by decide, by decide, by decide, by decide, by decide, by decide, by decide⟩
  ⟨h, symbol_token_roundtrip "x-y" h⟩

/-- C7 counterexample: a token beginning with `'+'` does not parse as a
symbol — `parse_part` falls through every branch and errors. -/
theorem plus_token_rejected :
    parse "+a" = .error ("syntax error: unknown character '" ++
      String.mk ['+'] ++ "'") := by
  have hpp : parse_part "" ['+', 'a']
      = .error ("syntax error: unknown character '" ++ String.mk ['+'] ++ "'") := by
    rw [show (['+', 'a'] : List Char) = '+' :: ['a'] from rfl]
    rw [parse_part]
    rw [if_neg (by decide)]
    split
    next kws heq =>
      rw [show get_named_part ('+' :: ['a']) = Option.none from by decide] at heq
      exact Option.noConfusion heq
    next heq =>
      rw [if_neg (by decide), if_neg (by decide), if_neg (by decide),
        if_neg (by decide)]
  unfold parse
  rw [show ("+a" : String).toList = ['+', 'a'] from rfl]
  rw [if_neg (by decide)]
  rw [parseTopF]
  rw [hpp]
  exact fun h => List.noConfusion h

/-! ## Claim C8: the `resolution_of` producer -/

/-- The calls the producer of `resolution_of` makes on its subscriber. -/
inductive PEvent where
  | next (prods : Ctx) : PEvent
  | completed : PEvent
deriving Repr, DecidableEq

/-- The producer returned by `crt::resolution_of`, as the trace of
subscriber calls: `sub i` is `s.is_subscribed()` at the `i`-th loop check,
fuel bounds the C++ `while` loop (each productive pass grows the products,
so `rules.size + 1` passes suffice; the sleep is dropped).  The loop body
computes `resolve_once`, breaks when the size is stationary, and emits
`on_next`; after the loop — on a failed subscription check as well — the
C++ unconditionally calls `s.on_completed()`. -/
def producerF (F : Interp) (rules : Ctx) (sub : Nat → Bool) :
    Nat → Nat → Ctx → List PEvent
  | 0, _, _ => []
  | fuel + 1, i, prods =>
    if sub i then
      if (resolve_once F rules prods).size = prods.size then [PEvent.completed]
      else PEvent.next (resolve_once F rules prods) ::
        producerF F rules sub fuel (i + 1) (resolve_once F rules prods)
    else [PEvent.completed]

/-- C8: the claim's first half is right — the loop checks the subscription
before computing, and a failed check at iteration `i` stops the loop with
no further `on_next`.  Its second half is wrong: the producer does not
"simply return" — `s.on_completed()` runs unconditionally after the loop,
so the cancelled producer still emits exactly one `on_completed`. -/
theorem resolution_producer_cancel (F : Interp) (rules : Ctx) (sub : Nat → Bool)
    (fuel i : Nat) (prods : Ctx) (h : sub i = false) :
    producerF F rules sub (fuel + 1) i prods = [PEvent.completed] := by
  unfold producerF
  rw [if_neg (by rw [h]; exact Bool.false_ne_true)]

theorem resolution_producer_cancel_witness :
    (fun _ : Nat => false) 0 = false ∧
    producerF (fun _ e => e) Ctx.empty (fun _ : Nat => false) 1 0 Ctx.empty
      = [PEvent.completed] :=
  ⟨rfl, resolution_producer_cancel (fun _ e => e) Ctx.empty (fun _ => false)
    0 0 Ctx.empty rfl⟩

/-- C8 counterexample: a subscriber that is already unsubscribed at the
first check still receives `on_completed` — the trace is not empty, as the
claim ("never calls on_completed — it simply returns") would have it. -/
theorem producer_completed_after_cancel :
    producerF (fun _ e => e) Ctx.empty (fun _ : Nat => false) 1 0 Ctx.empty
      = [PEvent.completed] ∧
    producerF (fun _ e => e) Ctx.empty (fun _ : Nat => false) 1 0 Ctx.empty
      ≠ [] := by
  constructor
  · rfl
  · intro h
    exact List.noConfusion h

/-! ## Claim C9: the worker pool (`crt-workers.hpp`) -/

/-- `worker_pool::task_t`: name, the shared cancellation flag, and an
opaque id standing for the `run` closure. -/
structure Task where
  name : String
  canceled : Bool
  runId : Nat
deriving Repr, DecidableEq

/-- The pool state guarded by `worker_pool::mutex`: the pending queue and
the running list. -/
structure Pool where
  pending : List Task
  running : List Task
deriving Repr, DecidableEq

/-- `worker_pool::named`: whether `find_if` finds a task with the name. -/
def hasNamed (n : String) (v : List Task) : Bool := v.any (fun t => t.name == n)

/-- Set the cancellation flag of the first task with the given name
(`*running->canceled = true` through the `named` iterator). -/
def setFlagFirst (n : String) : List Task → List Task
  | [] => []
  | t :: ts =>
    if t.name == n then Task.mk t.name true t.runId :: ts
    else t :: setFlagFirst n ts

/-- Erase the first task with the given name (`pending_tasks.erase(pending)`). -/
def eraseFirst (n : String) : List Task → List Task
  | [] => []
  | t :: ts => if t.name == n then ts else t :: eraseFirst n ts

/-- `worker_pool::cancel`: running first — set its flag; else if pending —
erase it; else nothing.  (Note the `else if`: a pending task with the name
survives whenever a running one exists.) -/
def Pool.cancel (p : Pool) (n : String) : Pool :=
  if hasNamed n p.running then Pool.mk p.pending (setFlagFirst n p.running)
  else if hasNamed n p.pending then Pool.mk (eraseFirst n p.pending) p.running
  else p

/-- `worker_pool::enqueue`: cancel the name, then push a fresh
(non-cancelled) task onto pending. -/
def Pool.enqueue (p : Pool) (n : String) (r : Nat) : Pool :=
  Pool.mk ((p.cancel n).pending ++ [Task.mk n false r]) (p.cancel n).running

/-- `worker_pool::next`: move the front pending task to running. -/
def Pool.next (p : Pool) : Pool :=
  match p.pending with
  | [] => p
  | t :: ts => Pool.mk ts (p.running ++ [t])

/-- `worker_pool::complete`: drop the first running task with the name. -/
def Pool.complete (p : Pool) (n : String) : Pool :=
  Pool.mk p.pending (eraseFirst n p.running)

/-- The submitted (pending or running) tasks with the name. -/
def countNamed (n : String) (v : List Task) : Nat :=
  (v.filter (fun t => t.name == n)).length

/-- The submitted tasks with the name whose flag is not set. -/
def countLive (n : String) (v : List Task) : Nat :=
  (v.filter (fun t => t.name == n && !t.canceled)).length

/-- The claim's "non-cancelled submitted tasks with that name". -/
def submittedLive (p : Pool) (n : String) : Nat :=
  countLive n p.pending + countLive n p.running

theorem countLive_append (n : String) (a b : List Task) :
    countLive n (a ++ b) = countLive n a + countLive n b := by
  unfold countLive
  rw [List.filter_append, List.length_append]

theorem countLive_zero_of_no_name (n : String) :
    ∀ v : List Task, hasNamed n v = false → countLive n v = 0
  | [], _ => rfl
  | t :: ts, h => by
    have h2 : ((t.name == n) || hasNamed n ts) = false := h
    have h3 : (t.name == n) = false := by
      cases hb : (t.name == n) with
      | false => rfl
      | true => rw [hb] at h2; simp at h2
    have h4 : hasNamed n ts = false := by
      cases hb : hasNamed n ts with
      | false => rfl
      | true => rw [hb] at h2; simp at h2
    show countLive n (t :: ts) = 0
    unfold countLive
    rw [List.filter_cons]
    rw [if_neg (by rw [h3]; simp)]
    exact countLive_zero_of_no_name n ts h4

theorem countLive_le_countNamed (n : String) :
    ∀ v : List Task, countLive n v ≤ countNamed n v
  | [] => Nat.le_refl 0
  | t :: ts => by
    have ih := countLive_le_countNamed n ts
    unfold countLive countNamed
    rw [List.filter_cons, List.filter_cons]
    by_cases hb : (t.name == n) = true
    · rw [hb, Bool.true_and, if_pos rfl]
      by_cases h2 : (!t.canceled) = true
      · rw [if_pos h2]
        simp only [List.length_cons]
        exact Nat.succ_le_succ ih
      · rw [if_neg h2]
        simp only [List.length_cons]
        exact Nat.le_succ_of_le ih
    · have hb2 : (t.name == n) = false := by
        cases hx : (t.name == n) with
        | false => rfl
        | true => exact absurd hx hb
      rw [hb2, Bool.false_and, if_neg (by exact Bool.false_ne_true),
        if_neg (by exact Bool.false_ne_true)]
      exact ih

theorem countNamed_eraseFirst (n : String) :
    ∀ v : List Task, hasNamed n v = true →
      countNamed n (eraseFirst n v) = countNamed n v - 1
  | [], h => absurd h Bool.false_ne_true
  | t :: ts, h => by
    cases hb : (t.name == n) with
    | true =>
      unfold eraseFirst
      rw [if_pos hb]
      unfold countNamed
      rw [List.filter_cons, if_pos hb]
      simp
    | false =>
      unfold eraseFirst
      rw [if_neg (by rw [hb]; exact Bool.false_ne_true)]
      unfold countNamed
      rw [List.filter_cons, List.filter_cons]
      rw [if_neg (by rw [hb]; exact Bool.false_ne_true),
        if_neg (by rw [hb]; exact Bool.false_ne_true)]
      have h2 : hasNamed n ts = true := by
        have h3 : ((t.name == n) || hasNamed n ts) = true := h
        rw [hb] at h3
        simpa using h3
      exact countNamed_eraseFirst n ts h2

/-- C9: `enqueue` is cancel-then-push, and `cancel` acts as the claim says
case by case — but because `cancel` checks the running list FIRST and only
otherwise touches the pending queue, the claimed global guarantee ("after
any enqueue at most one non-cancelled task with that name is submitted")
fails when a running and a pending task share the name (see the
counterexample).  It does hold when no running task bears the name and the
pending queue holds at most one: then the enqueue leaves exactly the fresh
task live. -/
theorem worker_pool_enqueue_spec (p : Pool) (n : String) (r : Nat)
    (hrun : hasNamed n p.running = false)
    (hpend : countNamed n p.pending ≤ 1) :
    Pool.enqueue p n r
      = Pool.mk ((p.cancel n).pending ++ [Task.mk n false r]) (p.cancel n).running ∧
    submittedLive (Pool.enqueue p n r) n ≤ 1 := by
  refine ⟨rfl, ?_⟩
  by_cases hp : hasNamed n p.pending = true
  · have hcancel : p.cancel n = Pool.mk (eraseFirst n p.pending) p.running := by
      unfold Pool.cancel
      rw [if_neg (by rw [hrun]; exact Bool.false_ne_true), if_pos hp]
    show countLive n ((p.cancel n).pending ++ [Task.mk n false r])
      + countLive n (p.cancel n).running ≤ 1
    rw [hcancel]
    show countLive n (eraseFirst n p.pending ++ [Task.mk n false r])
      + countLive n p.running ≤ 1
    rw [countLive_append, countLive_zero_of_no_name n p.running hrun]
    have h1 : countLive n (eraseFirst n p.pending) = 0 := by
      have h2 := countLive_le_countNamed n (eraseFirst n p.pending)
      rw [countNamed_eraseFirst n p.pending hp] at h2
      omega
    rw [h1]
    simp [countLive]
  · have hp2 : hasNamed n p.pending = false := by
      cases hb : hasNamed n p.pending with
      | false => rfl
      | true => exact absurd hb hp
    have hcancel : p.cancel n = p := by
      unfold Pool.cancel
      rw [if_neg (by rw [hrun]; exact Bool.false_ne_true),
        if_neg (by rw [hp2]; exact Bool.false_ne_true)]
    show countLive n ((p.cancel n).pending ++ [Task.mk n false r])
      + countLive n (p.cancel n).running ≤ 1
    rw [hcancel]
    rw [countLive_append, countLive_zero_of_no_name n p.running hrun,
      countLive_zero_of_no_name n p.pending hp2]
    simp [countLive]

theorem worker_pool_enqueue_spec_witness :
    hasNamed "T" (Pool.mk [] [Task.mk "U" false 0]).running = false ∧
    countNamed "T" (Pool.mk [] [Task.mk "U" false 0]).pending ≤ 1 ∧
    submittedLive (Pool.enqueue (Pool.mk [] [Task.mk "U" false 0]) "T" 1) "T" ≤ 1 :=
  ⟨by decide, by decide,
    (worker_pool_enqueue_spec (Pool.mk [] [Task.mk "U" false 0]) "T" 1
      (by decide) (by decide)).2⟩

/-- C9 counterexample: enqueue "T"; start it (next); enqueue "T" again —
cancel flags the running copy and pushes a live pending one; enqueue "T" a
third time — cancel again takes the running branch, the live pending copy
survives, and a second live copy is pushed: two non-cancelled submitted
tasks named "T", refuting "at most one" after an enqueue. -/
theorem worker_pool_two_live :
    submittedLive
      ((((Pool.mk [] []).enqueue "T" 1).next.enqueue "T" 2).enqueue "T" 3) "T"
      = 2 := by decide

/-! ## Claim C1: the kernel dependency graph (`crt::kernel`, crt-expr.hpp) -/

/-- `kernel::rule_t`, keeping the fields the dependency claims touch
(`value`, `error`, `dirty` and `flags` play no part in cycle checking). -/
structure Rule where
  expr : Expr
  incoming : List String
  outgoing : List String
deriving Repr, DecidableEq

/-- `crt::kernel`: the rule map (`map_t`), as an association list. -/
structure Kernel where
  rules : List (String × Rule)
deriving Repr, DecidableEq

/-- `kernel::contains`. -/
def kcontains (K : Kernel) (k : String) : Bool := amem K.rules k

/-- `kernel::incoming`: the stored incoming set, `{}` when absent. -/
def kincoming (K : Kernel) (k : String) : List String :=
  match afind? K.rules k with
  | some r => r.incoming
  | Option.none => []

/-- The scan branch of `kernel::outgoing`: rules naming `k` as a
dependency. -/
def scanOutgoing (K : Kernel) (k : String) : List String :=
  (K.rules.filter (fun kv => (kincoming K kv.1).contains k)).map Prod.fst

/-- `kernel::outgoing`: the cached set for a present rule, else the
scan. -/
def koutgoing (K : Kernel) (k : String) : List String :=
  match afind? K.rules k with
  | some r => r.outgoing
  | Option.none => scanOutgoing K k

/-- `kernel::downstream(key)` (non-inclusive): the recursive closure of
the outgoing edges.  The C++ recursion terminates only on acyclic graphs;
the fuel `rules.size + 1` is enough there (a path of distinct present keys
cannot be longer). -/
def downstreamF (K : Kernel) : Nat → String → List String
  | 0, _ => []
  | fuel + 1, k =>
    koutgoing K k ++ ((koutgoing K k).map (downstreamF K fuel)).join

/-- `downstream(key, true)`: the inclusive form used by `cyclic`. -/
def dependents (K : Kernel) (key : String) : List String :=
  key :: downstreamF K (K.rules.length + 1) key

/-- `kernel::cyclic(key, expr)`: some symbol of `expr` lies among the
dependents of `key`. -/
def cyclicB (K : Kernel) (key : String) (e : Expr) : Bool :=
  (Expr.symbols e).any (fun s => (dependents K key).contains s)

/-- `std::set` insert on the list model. -/
def insertUnique (x : String) (l : List String) : List String :=
  if l.contains x then l else l ++ [x]

/-- `kernel::reconnect(key, expr)`: erase `key` from the outgoing set of
every rule in `incoming(key)`, then add it to the outgoing set of every
rule named by a symbol of `expr`. -/
def reconnect (K : Kernel) (key : String) (e : Expr) : Kernel :=
  Kernel.mk (K.rules.map (fun kv =>
    (kv.1, Rule.mk kv.2.expr kv.2.incoming
      (if (Expr.symbols e).contains kv.1 then
        insertUnique key
          (if (kincoming K key).contains kv.1 then kv.2.outgoing.erase key
           else kv.2.outgoing)
      else
        (if (kincoming K key).contains kv.1 then kv.2.outgoing.erase key
         else kv.2.outgoing)))))

/-- `kernel::insert(key, expr)`: throw on `cyclic`, else reconnect and
store the rule with `incoming = expr.symbols()` and the `outgoing`
computed after reconnection.  (The loop re-adding `key` to the outgoing
set of each contained incoming rule repeats what `reconnect` just did —
`std::set::insert` is idempotent — and `mark(downstream(key, true))` only
sets dirty flags, so both are folded away.) -/
def kernelInsert (K : Kernel) (key : String) (e : Expr) : Except String Kernel :=
  if cyclicB K key e then .error "would create dependency cycle"
  else .ok (Kernel.mk (aset (reconnect K key e).rules key
    (Rule.mk e (Expr.symbols e) (koutgoing (reconnect K key e) key))))

/-- The dependency edge: `a` names `b` among its incoming symbols. -/
def KEdge (K : Kernel) (a b : String) : Prop := b ∈ kincoming K a

/-- The reverse edge the downstream scan walks. -/
def OutEdge (K : Kernel) (a b : String) : Prop := b ∈ koutgoing K a

/-- No dependency cycle. -/
def KAcyclic (K : Kernel) : Prop := ∀ a, ¬ Relation.TransGen (KEdge K) a a

/-- The kernel's maintained invariant: distinct keys, and every cached
outgoing set holds exactly the present rules naming its key as a
dependency. -/
def KWF (K : Kernel) : Prop :=
  (K.rules.map Prod.fst).Nodup ∧
  ∀ j r, afind? K.rules j = some r →
    ∀ t, t ∈ r.outgoing ↔ ∃ rt, afind? K.rules t = some rt ∧ j ∈ rt.incoming

theorem afind?_mem {α : Type} {l : List (String × α)} {k : String} {v : α}
    (h : afind? l k = some v) : (k, v) ∈ l := by
  induction l with
  | nil => cases h
  | cons kv l ih =>
    rw [afind?_cons] at h
    by_cases hb : (kv.1 == k) = true
    · rw [if_pos hb] at h
      injection h with h2
      rcases kv with ⟨k1, v1⟩
      have hk : k1 = k := by simpa using hb
      simp [← h2, hk]
    · rw [if_neg hb] at h
      exact List.mem_cons_of_mem _ (ih h)

theorem mem_afind? {α : Type} {l : List (String × α)}
    (hnd : (l.map Prod.fst).Nodup) {k : String} {v : α}
    (h : (k, v) ∈ l) : afind? l k = some v := by
  induction l with
  | nil => cases h
  | cons kv l ih =>
    rw [afind?_cons]
    rcases List.mem_cons.mp h with h1 | h1
    · rw [if_pos (by rw [← h1]; exact beq_self_eq_true k)]
      rw [← h1]
    · have hk : kv.1 ≠ k := by
        intro he
        have hm : k ∈ l.map Prod.fst := List.mem_map.mpr ⟨(k, v), h1, rfl⟩
        rw [List.map_cons, he] at hnd
        exact (List.nodup_cons.mp hnd).1 hm
      rw [if_neg (by simpa using hk)]
      exact ih (by rw [List.map_cons] at hnd; exact (List.nodup_cons.mp hnd).2) h1

theorem afind?_some_key_mem {α : Type} {l : List (String × α)} {k : String} {v : α}
    (h : afind? l k = some v) : k ∈ l.map Prod.fst :=
  List.mem_map.mpr ⟨(k, v), afind?_mem h, rfl⟩

theorem mem_kincoming {K : Kernel} {j t : String} :
    j ∈ kincoming K t ↔ ∃ rt, afind? K.rules t = some rt ∧ j ∈ rt.incoming := by
  unfold kincoming
  cases h : afind? K.rules t with
  | none =>
    constructor
    · intro hm
      cases hm
    · rintro ⟨rt, hrt, -⟩
      cases hrt
  | some r =>
    constructor
    · intro hm
      exact ⟨r, rfl, hm⟩
    · rintro ⟨rt, hrt, hm⟩
      injection hrt with h2
      rw [h2]
      exact hm

theorem outEdge_iff {K : Kernel} (hwf : KWF K) {j t : String} :
    OutEdge K j t ↔ KEdge K t j := by
  unfold OutEdge KEdge
  rw [mem_kincoming]
  unfold koutgoing
  cases h : afind? K.rules j with
  | some r =>
    exact hwf.2 j r h t
  | none =>
    constructor
    · intro hm
      have hm2 : t ∈ scanOutgoing K j := hm
      unfold scanOutgoing at hm2
      obtain ⟨kv, hkv, hfst⟩ := List.mem_map.mp hm2
      obtain ⟨hmem, hcond⟩ := List.mem_filter.mp hkv
      have hin : j ∈ kincoming K kv.1 := List.elem_iff.mp hcond
      rw [mem_kincoming] at hin
      obtain ⟨rt2, hrt2, hj⟩ := hin
      rw [hfst] at hrt2
      exact ⟨rt2, hrt2, hj⟩
    · rintro ⟨rt, hrt, hj⟩
      show t ∈ scanOutgoing K j
      unfold scanOutgoing
      refine List.mem_map.mpr ⟨(t, rt), List.mem_filter.mpr ⟨afind?_mem hrt, ?_⟩, rfl⟩
      refine List.elem_iff.mpr ?_
      rw [mem_kincoming]
      exact ⟨rt, hrt, hj⟩

/-- An explicit outgoing-edge path: `l` lists the nodes strictly between
`a` and `b`. -/
def OPath (K : Kernel) : String → List String → String → Prop
  | a, [], b => OutEdge K a b
  | a, x :: l, b => OutEdge K a x ∧ OPath K x l b

theorem transGen_opath {K : Kernel} {a b : String}
    (h : Relation.TransGen (OutEdge K) a b) : ∃ l, OPath K a l b := by
  induction h using Relation.TransGen.head_induction_on with
  | base hed => exact ⟨[], hed⟩
  | ih hed _ ih2 =>
    obtain ⟨l, hl⟩ := ih2
    exact ⟨_ :: l, hed, hl⟩

theorem opath_transGen {K : Kernel} :
    ∀ (l : List String) {a b : String},
      OPath K a l b → Relation.TransGen (OutEdge K) a b := by
  intro l
  induction l with
  | nil => exact fun h => Relation.TransGen.single h
  | cons x l ih =>
    rintro a b ⟨h1, h2⟩
    exact Relation.TransGen.head h1 (ih h2)

theorem opath_split {K : Kernel} :
    ∀ (l1 : List String) {a x b : String} {l2 : List String},
      OPath K a (l1 ++ x :: l2) b → OPath K a l1 x ∧ OPath K x l2 b := by
  intro l1
  induction l1 with
  | nil =>
    rintro a x b l2 ⟨h1, h2⟩
    exact ⟨h1, h2⟩
  | cons y l1 ih =>
    rintro a x b l2 ⟨h1, h2⟩
    obtain ⟨ha, hb⟩ := ih h2
    exact ⟨⟨h1, ha⟩, hb⟩

theorem no_outEdge_cycle {K : Kernel} (hwf : KWF K) (hacy : KAcyclic K) :
    ∀ x, ¬ Relation.TransGen (OutEdge K) x x := by
  intro x hx
  refine hacy x ?_
  have h2 : Relation.TransGen (Function.swap (KEdge K)) x x :=
    Relation.TransGen.mono (fun p q hpq => (outEdge_iff hwf).mp hpq) hx
  exact Relation.transGen_swap.mp h2

/-- In an acyclic well-formed kernel every outgoing-edge path visits
pairwise-distinct nodes. -/
theorem opath_nodup {K : Kernel} (hwf : KWF K) (hacy : KAcyclic K) :
    ∀ (l : List String) {a b : String},
      OPath K a l b → ((a :: l) ++ [b]).Nodup := by
  have hnc := no_outEdge_cycle hwf hacy
  intro l
  induction l with
  | nil =>
    intro a b h
    have hne : a ≠ b := by
      intro he
      exact hnc a (by rw [he] at h ⊢; exact Relation.TransGen.single h)
    simp [hne]
  | cons x l ih =>
    rintro a b ⟨h1, h2⟩
    have hrest := ih h2
    refine List.nodup_cons.mpr ⟨?_, hrest⟩
    intro hmem
    rcases List.mem_cons.mp hmem with he | hmem1
    · rw [← he] at h1
      exact hnc a (Relation.TransGen.single h1)
    · rcases List.mem_append.mp hmem1 with hmem2 | hmem3
      · obtain ⟨l1, l2, hsplit⟩ := List.append_of_mem hmem2
        rw [hsplit] at h2
        obtain ⟨hp1, -⟩ := opath_split l1 h2
        exact hnc a (Relation.TransGen.trans (Relation.TransGen.single h1)
          (opath_transGen l1 hp1))
      · have he : a = b := by simpa using hmem3
        have ht := Relation.TransGen.head h1 (opath_transGen l h2)
        rw [← he] at ht
        exact hnc a ht

theorem opath_mem_keys {K : Kernel} (hwf : KWF K) :
    ∀ (l : List String) {a b : String}, OPath K a l b →
      ∀ x ∈ l ++ [b], x ∈ K.rules.map Prod.fst := by
  intro l
  induction l with
  | nil =>
    intro a b h x hx
    have he : x = b := by simpa using hx
    obtain ⟨rt, hrt, -⟩ := mem_kincoming.mp ((outEdge_iff hwf).mp h)
    rw [he]
    exact afind?_some_key_mem hrt
  | cons y l ih =>
    rintro a b ⟨h1, h2⟩ x hx
    rcases List.mem_cons.mp hx with he | hx2
    · obtain ⟨rt, hrt, -⟩ := mem_kincoming.mp ((outEdge_iff hwf).mp h1)
      rw [he]
      exact afind?_some_key_mem hrt
    · exact ih h2 x hx2

theorem nodup_subset_length {l l2 : List String}
    (hnd : l.Nodup) (hsub : ∀ x ∈ l, x ∈ l2) : l.length ≤ l2.length := by
  have h1 : l.toFinset.card = l.length := List.toFinset_card_of_nodup hnd
  have h2 : l.toFinset ⊆ l2.toFinset := by
    intro x hx
    rw [List.mem_toFinset] at hx ⊢
    exact hsub x hx
  have h3 := Finset.card_le_card h2
  have h4 := List.toFinset_card_le l2
  omega

theorem opath_downstreamF {K : Kernel} :
    ∀ (l : List String) (fuel : Nat) {a b : String},
      OPath K a l b → l.length + 1 ≤ fuel → b ∈ downstreamF K fuel a := by
  intro l
  induction l with
  | nil =>
    intro fuel a b h hf
    cases fuel with
    | zero => exact absurd hf (by omega)
    | succ f =>
      show b ∈ koutgoing K a ++ ((koutgoing K a).map (downstreamF K f)).join
      exact List.mem_append.mpr (Or.inl h)
  | cons x l ih =>
    intro fuel a b h hf
    cases fuel with
    | zero => exact absurd hf (by omega)
    | succ f =>
      obtain ⟨h1, h2⟩ := h
      show b ∈ koutgoing K a ++ ((koutgoing K a).map (downstreamF K f)).join
      refine List.mem_append.mpr (Or.inr ?_)
      rw [List.mem_join]
      refine ⟨downstreamF K f x, List.mem_map.mpr ⟨x, h1, rfl⟩, ?_⟩
      refine ih f h2 ?_
      simp only [List.length_cons] at hf
      omega

theorem transGen_mem_downstreamF {K : Kernel} (hwf : KWF K) (hacy : KAcyclic K)
    {a b : String} (h : Relation.TransGen (OutEdge K) a b) :
    b ∈ downstreamF K (K.rules.length + 1) a := by
  obtain ⟨l, hl⟩ := transGen_opath h
  have hnd := opath_nodup hwf hacy l hl
  have hmem := opath_mem_keys hwf l hl
  have hnd2 : (l ++ [b]).Nodup := (List.nodup_cons.mp hnd).2
  have hlen : (l ++ [b]).length ≤ (K.rules.map Prod.fst).length :=
    nodup_subset_length hnd2 hmem
  refine opath_downstreamF l _ hl ?_
  simp only [List.length_append, List.length_map, List.length_cons,
    List.length_nil] at hlen
  omega

theorem downstreamF_transGen {K : Kernel} :
    ∀ (fuel : Nat) {a b : String}, b ∈ downstreamF K fuel a →
      Relation.TransGen (OutEdge K) a b := by
  intro fuel
  induction fuel with
  | zero =>
    intro a b h
    cases h
  | succ f ih =>
    intro a b h
    have h2 : b ∈ koutgoing K a ++ ((koutgoing K a).map (downstreamF K f)).join := h
    rcases List.mem_append.mp h2 with h3 | h3
    · exact Relation.TransGen.single h3
    · rw [List.mem_join] at h3
      obtain ⟨ll, hll, hb⟩ := h3
      obtain ⟨x, hx, hxe⟩ := List.mem_map.mp hll
      rw [← hxe] at hb
      exact Relation.TransGen.head hx (ih hb)

theorem cyclicB_iff {K : Kernel} (hwf : KWF K) (hacy : KAcyclic K)
    (key : String) (e : Expr) :
    cyclicB K key e = true ↔
      ∃ s ∈ Expr.symbols e, s = key ∨ Relation.TransGen (OutEdge K) key s := by
  unfold cyclicB dependents
  rw [List.any_eq_true]
  constructor
  · rintro ⟨s, hs, hc⟩
    refine ⟨s, hs, ?_⟩
    have hm : s ∈ key :: downstreamF K (K.rules.length + 1) key :=
      List.elem_iff.mp hc
    rcases List.mem_cons.mp hm with he | hm2
    · exact Or.inl he
    · exact Or.inr (downstreamF_transGen _ hm2)
  · rintro ⟨s, hs, hor⟩
    refine ⟨s, hs, List.elem_iff.mpr ?_⟩
    rcases hor with he | ht
    · exact List.mem_cons.mpr (Or.inl he)
    · exact List.mem_cons.mpr (Or.inr (transGen_mem_downstreamF hwf hacy ht))

theorem kincoming_map_out (out : String × Rule → List String) :
    ∀ (l : List (String × Rule)) (j : String),
      (match afind? (l.map (fun kv =>
          (kv.1, Rule.mk kv.2.expr kv.2.incoming (out kv)))) j with
       | some r => r.incoming
       | Option.none => []) =
      (match afind? l j with
       | some r => r.incoming
       | Option.none => []) := by
  intro l j
  induction l with
  | nil => rfl
  | cons kv l ih =>
    rcases kv with ⟨k1, r1⟩
    simp only [List.map_cons, afind?_cons]
    by_cases hb : (k1 == j) = true
    · rw [if_pos hb, if_pos hb]
    · rw [if_neg hb, if_neg hb]
      exact ih

theorem kincoming_insertK (K : Kernel) (key : String) (e : Expr) (j : String) :
    kincoming (Kernel.mk (aset (reconnect K key e).rules key
      (Rule.mk e (Expr.symbols e) (koutgoing (reconnect K key e) key)))) j
    = if j = key then Expr.symbols e else kincoming K j := by
  by_cases hj : j = key
  · rw [if_pos hj, hj]
    show (match afind? (aset (reconnect K key e).rules key
        (Rule.mk e (Expr.symbols e) (koutgoing (reconnect K key e) key))) key with
      | some r => r.incoming
      | Option.none => []) = Expr.symbols e
    rw [afind?_aset_self]
  · rw [if_neg hj]
    show (match afind? (aset (reconnect K key e).rules key
        (Rule.mk e (Expr.symbols e) (koutgoing (reconnect K key e) key))) j with
      | some r => r.incoming
      | Option.none => []) = kincoming K j
    rw [afind?_aset_ne _ _ _ _ hj]
    exact kincoming_map_out _ K.rules j

/-- The old edges away from `key` in the extended graph. -/
def R0K (K : Kernel) (key : String) (x y : String) : Prop := x ≠ key ∧ KEdge K x y

/-- The fresh edges out of `key` after the insert. -/
def SK (key : String) (e : Expr) (x y : String) : Prop :=
  x = key ∧ y ∈ Expr.symbols e

theorem rs_to_key {R S : String → String → Prop} {key : String}
    (hS : ∀ x y, S x y → x = key) :
    ∀ b, Relation.ReflTransGen (fun x y => R x y ∨ S x y) b key →
      Relation.ReflTransGen R b key := by
  intro b h
  induction h using Relation.ReflTransGen.head_induction_on with
  | refl => exact Relation.ReflTransGen.refl
  | head hed _ ih =>
    rcases hed with hr | hs
    · exact Relation.ReflTransGen.head hr ih
    · rw [hS _ _ hs]

theorem rs_first_s {R S : String → String → Prop} {key : String}
    (hS : ∀ x y, S x y → x = key) :
    ∀ (a c : String), Relation.ReflTransGen (fun x y => R x y ∨ S x y) a c →
      Relation.ReflTransGen R a c ∨
        (Relation.ReflTransGen R a key ∧ ∃ b, S key b ∧
          Relation.ReflTransGen (fun x y => R x y ∨ S x y) b c) := by
  intro a c h
  induction h using Relation.ReflTransGen.head_induction_on with
  | refl => exact Or.inl Relation.ReflTransGen.refl
  | head hed hrest ih =>
    rcases hed with hr | hs
    · rcases ih with ih1 | ⟨ihp, b, hb, hrest2⟩
      · exact Or.inl (Relation.ReflTransGen.head hr ih1)
      · exact Or.inr ⟨Relation.ReflTransGen.head hr ihp, b, hb, hrest2⟩
    · have ha := hS _ _ hs
      rw [ha] at hs
      refine Or.inr ⟨by rw [ha], _, hs, hrest⟩

/-- A successful `kernel::insert` keeps the dependency graph acyclic. -/
theorem kernelInsert_acyclic {K : Kernel} {key : String} {e : Expr} {K' : Kernel}
    (hwf : KWF K) (hacy : KAcyclic K)
    (hok : kernelInsert K key e = .ok K') : KAcyclic K' := by
  have hcyc : cyclicB K key e = false := by
    cases hc : cyclicB K key e with
    | false => rfl
    | true =>
      unfold kernelInsert at hok
      rw [if_pos hc] at hok
      cases hok
  have hK' : K' = Kernel.mk (aset (reconnect K key e).rules key
      (Rule.mk e (Expr.symbols e) (koutgoing (reconnect K key e) key))) := by
    unfold kernelInsert at hok
    rw [if_neg (by rw [hcyc]; exact Bool.false_ne_true)] at hok
    injection hok with h2
    exact h2.symm
  have hedge : ∀ a b, KEdge K' a b ↔ (R0K K key a b ∨ SK key e a b) := by
    intro a b
    unfold KEdge R0K SK
    rw [hK']
    show b ∈ kincoming (Kernel.mk (aset (reconnect K key e).rules key
      (Rule.mk e (Expr.symbols e) (koutgoing (reconnect K key e) key)))) a ↔ _
    rw [kincoming_insertK]
    by_cases hj : a = key
    · rw [if_pos hj]
      constructor
      · intro hb
        exact Or.inr ⟨hj, hb⟩
      · rintro (⟨hne, -⟩ | ⟨-, hb⟩)
        · exact absurd hj hne
        · exact hb
    · rw [if_neg hj]
      constructor
      · intro hb
        exact Or.inl ⟨hj, hb⟩
      · rintro (⟨-, hb⟩ | ⟨he, -⟩)
        · exact hb
        · exact absurd he hj
  have hnosym : ∀ s, s ∈ Expr.symbols e →
      s ≠ key ∧ ¬ Relation.TransGen (OutEdge K) key s := by
    intro s hs
    constructor
    · intro he
      have hc : cyclicB K key e = true :=
        (cyclicB_iff hwf hacy key e).mpr ⟨s, hs, Or.inl he⟩
      rw [hcyc] at hc
      cases hc
    · intro ht
      have hc : cyclicB K key e = true :=
        (cyclicB_iff hwf hacy key e).mpr ⟨s, hs, Or.inr ht⟩
      rw [hcyc] at hc
      cases hc
  intro a hcycle
  have hSsrc : ∀ x y, SK key e x y → x = key := fun x y h => h.1
  have hcy2 : Relation.TransGen (fun x y => R0K K key x y ∨ SK key e x y) a a :=
    Relation.TransGen.mono (fun p q hpq => (hedge p q).mp hpq) hcycle
  obtain ⟨d, hd, hrest⟩ := Relation.TransGen.head'_iff.mp hcy2
  have hcontra : ∀ b, SK key e key b →
      Relation.ReflTransGen (fun x y => R0K K key x y ∨ SK key e x y) b key →
        False := by
    intro b hSb hreach
    have h1 : Relation.ReflTransGen (R0K K key) b key := rs_to_key hSsrc b hreach
    obtain ⟨hbne, hnt⟩ := hnosym b hSb.2
    rcases Relation.reflTransGen_iff_eq_or_transGen.mp h1 with he | ht
    · exact hbne he.symm
    · have ht2 : Relation.TransGen (KEdge K) b key :=
        Relation.TransGen.mono (fun p q hpq => hpq.2) ht
      have ht3 : Relation.TransGen (Function.swap (OutEdge K)) b key :=
        Relation.TransGen.mono (fun p q hpq => (outEdge_iff hwf).mpr hpq) ht2
      exact hnt (Relation.transGen_swap.mp ht3)
  rcases hd with hr | hs
  · rcases rs_first_s hSsrc d a hrest with h1 | ⟨hp, b, hb, hrest2⟩
    · have hcy3 : Relation.TransGen (R0K K key) a a :=
        Relation.TransGen.head' hr h1
      have ht2 : Relation.TransGen (KEdge K) a a :=
        Relation.TransGen.mono (fun p q hpq => hpq.2) hcy3
      exact hacy a ht2
    · refine hcontra b hb ?_
      have hak : Relation.ReflTransGen
          (fun x y => R0K K key x y ∨ SK key e x y) d key :=
        Relation.ReflTransGen.mono (fun p q hpq => Or.inl hpq) hp
      exact Relation.ReflTransGen.trans hrest2
        (Relation.ReflTransGen.head (Or.inl hr) hak)
  · have ha : a = key := hs.1
    refine hcontra d (ha ▸ hs) ?_
    rw [ha] at hrest
    exact hrest

/-- C1: the claim as stated is about `context::insert`, which performs NO
cycle check (see the counterexample): it never fails, even when a symbol
of `e` lies in `referencing(e.key())`.  The cycle check the claim
describes lives in `kernel::insert`: on a well-formed acyclic kernel it
throws exactly when some symbol of the new rule is the key itself or lies
strictly downstream of it, a failing insert returns before any mutation,
and a successful insert keeps the dependency graph acyclic. -/
theorem kernel_insert_cycle_spec (K : Kernel) (key : String) (e : Expr)
    (hwf : KWF K) (hacy : KAcyclic K) :
    (kernelInsert K key e = .error "would create dependency cycle" ↔
      ∃ s ∈ Expr.symbols e, s = key ∨ Relation.TransGen (OutEdge K) key s) ∧
    (∀ K', kernelInsert K key e = .ok K' → KAcyclic K') := by
  constructor
  · rw [← cyclicB_iff hwf hacy key e]
    constructor
    · intro h
      cases hc : cyclicB K key e with
      | true => rfl
      | false =>
        unfold kernelInsert at h
        rw [if_neg (by rw [hc]; exact Bool.false_ne_true)] at h
        cases h
    · intro hc
      unfold kernelInsert
      rw [if_pos hc]
  · intro K' hok
    exact kernelInsert_acyclic hwf hacy hok

theorem kernel_insert_cycle_spec_witness :
    KWF (Kernel.mk []) ∧ KAcyclic (Kernel.mk []) ∧
    ((kernelInsert (Kernel.mk []) "a" (Expr.sym "b" "")
        = .error "would create dependency cycle" ↔
      ∃ s ∈ Expr.symbols (Expr.sym "b" ""),
        s = "a" ∨ Relation.TransGen (OutEdge (Kernel.mk [])) "a" s) ∧
     (∀ K', kernelInsert (Kernel.mk []) "a" (Expr.sym "b" "") = .ok K' →
        KAcyclic K')) :=
  have hwf : KWF (Kernel.mk []) := ⟨List.nodup_nil, by intro j r h; cases h⟩
  have hacy : KAcyclic (Kernel.mk []) := by
    intro a h
    obtain ⟨d, hd, -⟩ := Relation.TransGen.head'_iff.mp h
    exact List.not_mem_nil d hd
  ⟨hwf, hacy, kernel_insert_cycle_spec (Kernel.mk []) "a" (Expr.sym "b" "") hwf hacy⟩

/-- C1 counterexample: `context::insert` performs no cycle check.
Inserting `b = a` into `{a = b}` meets the claim's CycleError condition —
the symbol `a` of the new rule lies in `referencing("b")` — yet the insert
goes through and changes the context, leaving mutually-referencing
rules. -/
theorem context_insert_ignores_cycles :
    ("a" ∈ Ctx.referencing (Ctx.empty.insert (Expr.sym "b" "a")) "b") ∧
    ((Ctx.empty.insert (Expr.sym "b" "a")).insert (Expr.sym "a" "b")
      ≠ Ctx.empty.insert (Expr.sym "b" "a")) ∧
    ("a" ∈ Ctx.referencing
      ((Ctx.empty.insert (Expr.sym "b" "a")).insert (Expr.sym "a" "b")) "b") ∧
    ("b" ∈ Ctx.referencing
      ((Ctx.empty.insert (Expr.sym "b" "a")).insert (Expr.sym "a" "b")) "a") := by
  decide

end Crt
